import Mathlib

/-!
Verification of the geometric intersection and shading pipeline of the
ray-tracer repository (src/vec3.rs, src/ray.rs, src/aabb.rs, src/sphere.rs,
src/moving_sphere.rs, src/hittable.rs, src/hittable_list.rs, src/bvh_v3.rs,
src/material.rs).

Modelling conventions.
The Rust code computes with `f64`; this development embeds the same
arithmetic over `ℚ` (exact rationals), the standard idealisation for
verifying floating-point-free algorithmic structure.  Two `f64` operations
have no rational counterpart and are threaded through as explicit function
parameters wherever the source calls them:
  - `f64::sqrt` becomes a parameter `s : ℚ → ℚ`;
  - `Sphere::get_sphere_uv` (built from `acos`/`atan2`, transcendental)
    becomes a parameter `uv : Vec3 → ℚ × ℚ`.
Calls to the random generators (`random_int_in_range` at BVH build time,
`random_unit_vector`, `random_in_unit_sphere`, `random_float` at scatter
time) are modelled as explicit inputs: an axis oracle indexed by the node
path for BVH construction, and the drawn vector / float for `scatter`,
so theorems quantify over every possible random outcome.
Rust `panic!` has no return channel (`BVH::construct` returns `Self`), so
panics are embedded as `Except.error (Panic.mk msg)` carrying the exact
source message, and ordinary returns as `Except.ok`.
-/

/-- Vector with three rational components, mirroring `Vec3` in src/vec3.rs. -/
structure Vec3 where
  x : ℚ
  y : ℚ
  z : ℚ
deriving DecidableEq

namespace Vec3

/-- Componentwise addition, mirroring `impl Add<Vec3> for Vec3`. -/
def add (a b : Vec3) : Vec3 := ⟨a.x + b.x, a.y + b.y, a.z + b.z⟩

/-- Componentwise subtraction, mirroring `impl Sub<Vec3> for Vec3`. -/
def sub (a b : Vec3) : Vec3 := ⟨a.x - b.x, a.y - b.y, a.z - b.z⟩

/-- Scaling by a scalar, mirroring `impl Mul<f64> for Vec3`. -/
def smul (a : Vec3) (k : ℚ) : Vec3 := ⟨a.x * k, a.y * k, a.z * k⟩

/-- Componentwise product, mirroring `impl Mul<Vec3> for Vec3`. -/
def hmul (a b : Vec3) : Vec3 := ⟨a.x * b.x, a.y * b.y, a.z * b.z⟩

/-- Division by a scalar, mirroring `impl Div<f64> for Vec3`. -/
def divs (a : Vec3) (k : ℚ) : Vec3 := ⟨a.x / k, a.y / k, a.z / k⟩

/-- Dot product, mirroring `Vec3::dot_product`. -/
def dot_product (a b : Vec3) : ℚ := a.x * b.x + a.y * b.y + a.z * b.z

/-- Squared length, mirroring `Vec3::length_squared`. -/
def length_squared (a : Vec3) : ℚ := a.x * a.x + a.y * a.y + a.z * a.z

/-- Unit vector `v / v.length()`; `length = sqrt(length_squared)` so the
`f64::sqrt` model `s` is a parameter (mirroring `Vec3::unit_vector`). -/
def unit_vector (s : ℚ → ℚ) (a : Vec3) : Vec3 := a.divs (s a.length_squared)

/-- Reflection `v - n * (2 * dot(v, n))`, mirroring `Vec3::reflect` (the
source also computes an unused local `y`; it does not affect the result). -/
def reflect (vector normal : Vec3) : Vec3 :=
  vector.sub (normal.smul (vector.dot_product normal * 2))

/-- Refraction by Snell's law, mirroring `Vec3::refract`; `s` models the
`f64::sqrt` call in the parallel component. -/
def refract (s : ℚ → ℚ) (uvec normal : Vec3) (etai_over_etat : ℚ) : Vec3 :=
  let cos_theta : ℚ := min (uvec.dot_product (normal.smul (-1))) 1
  let r_out_perp : Vec3 := ((uvec.add (normal.smul cos_theta)).smul etai_over_etat)
  let r_out_paralel : Vec3 :=
    (normal.smul (s (abs (1 - r_out_perp.length_squared)))).smul (-1)
  r_out_perp.add r_out_paralel

/-- Near-zero test with the source's `1e-8` threshold, mirroring
`Vec3::near_zero`. -/
def near_zero (a : Vec3) : Bool :=
  |a.x| < 1/100000000 && |a.y| < 1/100000000 && |a.z| < 1/100000000

end Vec3

/-- Ray with origin, direction and time, mirroring `Ray` in src/ray.rs. -/
structure Ray where
  origin : Vec3
  direction : Vec3
  time : ℚ
deriving DecidableEq

namespace Ray

/-- Point on the ray at parameter `t`: `origin + direction * t`,
mirroring `Ray::at` (named `atParam` here because `at` is reserved). -/
def atParam (r : Ray) (t : ℚ) : Vec3 := r.origin.add (r.direction.smul t)

end Ray

/-- Axis-aligned bounding box, mirroring `AABB` in src/aabb.rs. -/
structure AABB where
  minimum : Vec3
  maximum : Vec3
deriving DecidableEq

/-- Coordinate of a vector along a dimension index (`0 -> x, 1 -> y,
else z`), the same selection each branch of `computeIntersection` makes. -/
def vecComp (v : Vec3) (dimension : ℕ) : ℚ :=
  if dimension = 0 then v.x else if dimension = 1 then v.y else v.z

/-- Coordinate of the box's minimum corner along a dimension index. -/
def minComp (b : AABB) (dimension : ℕ) : ℚ := vecComp b.minimum dimension

/-- Coordinate of the box's maximum corner along a dimension index. -/
def maxComp (b : AABB) (dimension : ℕ) : ℚ := vecComp b.maximum dimension

namespace AABB

/-- Per-dimension slab test, embedding `AABB::computeIntersection`
(src/aabb.rs lines 75-119).  The source's three-way branch on `dimension`
selects the x, y or z coordinates of box corners, ray origin and ray
direction; that selection is factored through `vecComp`/`minComp`/`maxComp`
(which make exactly the same three-way branch).  Then
`t0 = (min - origin) * inv_d`, `t1 = (max - origin) * inv_d`, swapped when
`inv_d < 0`; the incoming interval is narrowed and the axis passes when it
stays non-empty (`max_computed_t <= min_computed_t` means miss). -/
def computeIntersection (b : AABB) (ray : Ray) (min_t max_t : ℚ)
    (dimension : ℕ) : Bool :=
  let inv_d : ℚ := 1 / vecComp ray.direction dimension
  let t0 : ℚ := (minComp b dimension - vecComp ray.origin dimension) * inv_d
  let t1 : ℚ := (maxComp b dimension - vecComp ray.origin dimension) * inv_d
  let t0s : ℚ := if inv_d < 0 then t1 else t0
  let t1s : ℚ := if inv_d < 0 then t0 else t1
  let min_computed_t : ℚ := if t0s > min_t then t0s else min_t
  let max_computed_t : ℚ := if t1s < max_t then t1s else max_t
  if max_computed_t ≤ min_computed_t then false else true

/-- Slab test over the three dimensions, mirroring `AABB::hit`
(src/aabb.rs lines 27-32). -/
def hit (b : AABB) (ray : Ray) (min_t max_t : ℚ) : Bool :=
  b.computeIntersection ray min_t max_t 0 &&
  b.computeIntersection ray min_t max_t 1 &&
  b.computeIntersection ray min_t max_t 2

/-- Union of two boxes: componentwise min of minima and max of maxima,
mirroring `AABB::surrounding_box`. -/
def surrounding_box (first second : AABB) : AABB :=
  { minimum := ⟨min first.minimum.x second.minimum.x,
                min first.minimum.y second.minimum.y,
                min first.minimum.z second.minimum.z⟩,
    maximum := ⟨max first.maximum.x second.maximum.x,
                max first.maximum.y second.maximum.y,
                max first.maximum.z second.maximum.z⟩ }

end AABB

/-- The point lies in the closed box: componentwise between the corners. -/
def inClosedBox (b : AABB) (p : Vec3) : Prop :=
  b.minimum.x ≤ p.x ∧ p.x ≤ b.maximum.x ∧
  b.minimum.y ≤ p.y ∧ p.y ≤ b.maximum.y ∧
  b.minimum.z ≤ p.z ∧ p.z ≤ b.maximum.z

instance (b : AABB) (p : Vec3) : Decidable (inClosedBox b p) := by
  unfold inClosedBox; infer_instance

/-- Specification-side rendering of one axis of the slab test, written
from the spec's words (section 4.1): narrow by `t_min' = max(t_min, t0)`
and `t_max' = min(t_max, t1)` with `t0, t1` swapped when `inv_dir < 0`;
the axis passes when the narrowed interval is non-empty, the box being
missed exactly when `t_max' <= t_min'`. -/
def slabAxisSpec (b : AABB) (ray : Ray) (t_min t_max : ℚ)
    (dimension : ℕ) : Prop :=
  let inv_dir : ℚ := 1 / vecComp ray.direction dimension
  let t0 : ℚ := (minComp b dimension - vecComp ray.origin dimension) * inv_dir
  let t1 : ℚ := (maxComp b dimension - vecComp ray.origin dimension) * inv_dir
  let tEntry : ℚ := if inv_dir < 0 then t1 else t0
  let tExit : ℚ := if inv_dir < 0 then t0 else t1
  ¬ (min t_max tExit ≤ max t_min tEntry)

/-- Specification-side slab test, written from the spec's words: the ray
hits the box iff all three axes leave a non-empty narrowed interval. -/
def aabbHitSpec (b : AABB) (ray : Ray) (t_min t_max : ℚ) : Prop :=
  slabAxisSpec b ray t_min t_max 0 ∧
  slabAxisSpec b ray t_min t_max 1 ∧
  slabAxisSpec b ray t_min t_max 2

/-- One axis of the code's slab test agrees with the spec's rendering. -/
theorem computeIntersection_eq_slabAxisSpec (b : AABB) (ray : Ray)
    (t_min t_max : ℚ) (d : ℕ) :
    (b.computeIntersection ray t_min t_max d = true) ↔
      slabAxisSpec b ray t_min t_max d := by
  unfold AABB.computeIntersection slabAxisSpec
  dsimp only
  generalize 1 / vecComp ray.direction d = I
  generalize (minComp b d - vecComp ray.origin d) * I = A
  generalize (maxComp b d - vecComp ray.origin d) * I = B
  rw [max_def, min_def]
  split_ifs <;> simp <;> linarith

/-- C5: for every box, ray and interval, `AABB::hit` returns true if and
only if, for each of the three axes, narrowing the interval by
`t_min' = max(t_min, t0)` and `t_max' = min(t_max, t1)` (with `t0`, `t1`
swapped when `inv_dir < 0`) leaves a non-empty interval; the box is missed
exactly when `t_max' <= t_min'` on some axis. -/
theorem aabb_hit_iff_slab_spec (b : AABB) (ray : Ray) (t_min t_max : ℚ) :
    (AABB.hit b ray t_min t_max = true) ↔ aabbHitSpec b ray t_min t_max := by
  unfold AABB.hit aabbHitSpec
  simp only [Bool.and_eq_true, computeIntersection_eq_slabAxisSpec, and_assoc]

/-- On a degenerate axis (minimum = maximum) with a nonzero ray-direction
component, one slab always collapses: the narrowed interval satisfies
`max_computed_t <= min_computed_t`, so `computeIntersection` reports a
miss.  (The nonzero-direction hypothesis keeps the rational model faithful
to the `f64` code, whose division by a zero component yields infinities.) -/
theorem computeIntersection_degenerate (b : AABB) (ray : Ray)
    (min_t max_t : ℚ) (dim : ℕ)
    (hdeg : minComp b dim = maxComp b dim)
    (hdir : vecComp ray.direction dim ≠ 0) :
    b.computeIntersection ray min_t max_t dim = false := by
  unfold AABB.computeIntersection
  dsimp only
  rw [hdeg]
  generalize (maxComp b dim - vecComp ray.origin dim) *
    (1 / vecComp ray.direction dim) = V
  split_ifs <;> first | rfl | (exfalso; linarith)

/-- C2 counterexample: the claim fails on the code.  The box degenerate on
every axis (both corners at the origin) is passed through by the ray from
`(-1,-1,-1)` along `(1,1,1)` at parameter `t = 1`, strictly inside the
search interval `(0, 2)`, yet `AABB::hit` reports a miss: on each axis the
narrowed interval collapses to a point and `max_computed_t <=
min_computed_t` fires. -/
theorem aabb_degenerate_false_negative_cex :
    let b : AABB := ⟨⟨0, 0, 0⟩, ⟨0, 0, 0⟩⟩
    let r : Ray := ⟨⟨-1, -1, -1⟩, ⟨1, 1, 1⟩, 0⟩
    inClosedBox b (r.atParam 1) ∧ (0 : ℚ) < 1 ∧ (1 : ℚ) < 2 ∧
      AABB.hit b r 0 2 = false := by
  refine ⟨?_, by norm_num, by norm_num, ?_⟩
  · simp [inClosedBox, Ray.atParam, Vec3.add, Vec3.smul]
  · norm_num [AABB.hit, AABB.computeIntersection, minComp, maxComp, vecComp]

/-- C2 (amended): a zero-thickness box on some axis causes a false
negative rather than never causing one: for every ray whose direction has
a nonzero component on the degenerate axis (the nonzero hypothesis keeps
the rational model faithful to `f64`, where a zero component produces
infinities instead), `AABB::hit` reports a miss for every search interval,
including rays that pass through the box at a parameter strictly inside
`(t_min, t_max)`. -/
theorem aabb_degenerate_axis_always_misses (b : AABB) (ray : Ray)
    (min_t max_t : ℚ) (dim : ℕ) (hlt : dim < 3)
    (hdeg : minComp b dim = maxComp b dim)
    (hdir : vecComp ray.direction dim ≠ 0) :
    AABB.hit b ray min_t max_t = false := by
  have h := computeIntersection_degenerate b ray min_t max_t dim hdeg hdir
  unfold AABB.hit
  interval_cases dim <;> simp [h]

/-- C2 amended-claim witness: the x-degenerate box with corners `(0,0,0)`
and `(0,1,1)` is missed by the ray from `(-1,0,0)` along `(1,1,1)` over
the interval `(0, 2)`. -/
theorem aabb_degenerate_axis_always_misses_witness :
    (0 : ℕ) < 3 ∧
      minComp ⟨⟨0, 0, 0⟩, ⟨0, 1, 1⟩⟩ 0 = maxComp ⟨⟨0, 0, 0⟩, ⟨0, 1, 1⟩⟩ 0 ∧
      vecComp (⟨1, 1, 1⟩ : Vec3) 0 ≠ 0 ∧
      AABB.hit ⟨⟨0, 0, 0⟩, ⟨0, 1, 1⟩⟩ ⟨⟨-1, 0, 0⟩, ⟨1, 1, 1⟩, 0⟩ 0 2 = false :=
  ⟨by norm_num, by norm_num [minComp, maxComp, vecComp],
   by norm_num [vecComp],
   aabb_degenerate_axis_always_misses _ ⟨⟨-1, 0, 0⟩, ⟨1, 1, 1⟩, 0⟩ 0 2 0
     (by norm_num) (by norm_num [minComp, maxComp, vecComp])
     (by norm_num [vecComp])⟩

/-- Trait object `Box<dyn Texture>` modelled as its only capability, the
pure `value(u, v, point) -> color` method (src/texture.rs). -/
def Texture : Type := ℚ → ℚ → Vec3 → Vec3

/-- Material variants, mirroring `enum Material` in src/material.rs. -/
inductive Material where
  | lambertian (albedo : Texture)
  | metal (albedo : Vec3) (fuzz : ℚ)
  | dielectric (index_of_refraction : ℚ)

/-- Result of a scattering event, mirroring `Scattering` in
src/material.rs. -/
structure Scattering where
  attenuation : Vec3
  scattered : Ray

/-- Intersection record, mirroring `HitRecord` in src/hittable.rs. -/
structure HitRecord where
  point : Vec3
  normal : Vec3
  t : ℚ
  u : ℚ
  v : ℚ
  front_face : Bool
  material : Material

namespace HitRecord

/-- Shared normal-orientation rule, mirroring `HitRecord::set_face_normal`
(src/hittable.rs lines 38-46): `front_face = dot(ray.direction,
outward_normal) < 0`; the stored normal is the outward normal when
front-facing, else its negation. -/
def set_face_normal (record : HitRecord) (ray : Ray)
    (outward_normal : Vec3) : HitRecord :=
  let ff : Bool := decide (ray.direction.dot_product outward_normal < 0)
  { record with
      front_face := ff,
      normal := if ff then outward_normal else outward_normal.smul (-1) }

end HitRecord

/-- Schlick's reflectance approximation, mirroring `reflectance` in
src/material.rs. -/
def reflectance (cosine reflective_index : ℚ) : ℚ :=
  let r0 : ℚ := (1 - reflective_index) / (1 + reflective_index)
  let r0 : ℚ := r0 * r0
  r0 + (1 - r0) * (1 - cosine) ^ (5 : ℕ)

/-- Scattering step, mirroring `Material::scatter` (src/material.rs lines
50-103).  The random draws are explicit inputs: `rv` models the one random
vector the call may draw (`random_unit_vector()` for Lambertian,
`random_in_unit_sphere()` for Metal) and `rf` models `random_float()` in
the Dielectric branch; `s` models `f64::sqrt`.  `Ray::new` with
`Some(time)` stores that time, as in src/ray.rs. -/
def scatter (s : ℚ → ℚ) (rv : Vec3) (rf : ℚ) (m : Material)
    (inc_ray : Ray) (record : HitRecord) : Option Scattering :=
  match m with
  | Material.lambertian albedo =>
      let scatter_direction := record.normal.add rv
      let scatter_direction :=
        if scatter_direction.near_zero then record.normal else scatter_direction
      let scattered : Ray := ⟨record.point, scatter_direction, inc_ray.time⟩
      let attenuation := albedo record.u record.v record.point
      some ⟨attenuation, scattered⟩
  | Material.metal albedo fuzz =>
      let reflected := Vec3.reflect (inc_ray.direction.unit_vector s) record.normal
      let scattered : Ray :=
        ⟨record.point, reflected.add (rv.smul fuzz), inc_ray.time⟩
      let attenuation := albedo
      let dotv := scattered.direction.dot_product record.normal
      if dotv > 0 then some ⟨attenuation, scattered⟩ else none
  | Material.dielectric index_of_refraction =>
      let attenuation : Vec3 := ⟨1, 1, 1⟩
      let refraction_ratio : ℚ :=
        if record.front_face then 1 / index_of_refraction
        else index_of_refraction
      let unit_direction := inc_ray.direction.unit_vector s
      let cos_theta : ℚ :=
        min ((unit_direction.smul (-1)).dot_product record.normal) 1
      let sin_theta : ℚ := s (1 - cos_theta * cos_theta)
      let cannot_refract : Prop := refraction_ratio * sin_theta > 1
      let direction : Vec3 :=
        if cannot_refract ∨ reflectance cos_theta refraction_ratio > rf
        then Vec3.reflect unit_direction record.normal
        else Vec3.refract s unit_direction record.normal refraction_ratio
      some ⟨attenuation, ⟨record.point, direction, inc_ray.time⟩⟩

/-- Sphere primitive, mirroring `Sphere` in src/sphere.rs. -/
structure Sphere where
  center : Vec3
  radius : ℚ
  material : Material

namespace Sphere

/-- Root selection of the half-b quadratic, mirroring
`Sphere::get_first_root_in_range` (src/sphere.rs lines 38-58): no root
when the discriminant is negative, otherwise try the smaller root
`(-b - sqrt(d)) / a` against the open range, then the larger one.  The
`f64::sqrt` call on the discriminant is the parameter `s`. -/
def get_first_root_in_range (s : ℚ → ℚ) (a b c mn mx : ℚ) : Option ℚ :=
  let discriminant : ℚ := b * b - a * c
  if discriminant < 0 then none
  else
    let discrim_sqrt := s discriminant
    let root := (-b - discrim_sqrt) / a
    if root > mn ∧ root < mx then some root
    else
      let root := (-b + discrim_sqrt) / a
      if root > mn ∧ root < mx then some root
      else none

/-- Intersection test, mirroring `impl Hittable for Sphere::hit`
(src/sphere.rs lines 62-83); `uv` models `Sphere::get_sphere_uv`
(transcendental spherical coordinates). -/
def hit (s : ℚ → ℚ) (uv : Vec3 → ℚ × ℚ) (sp : Sphere) (ray : Ray)
    (t_min t_max : ℚ) : Option HitRecord :=
  let origin_to_center := ray.origin.sub sp.center
  let a : ℚ := ray.direction.length_squared
  let half_b : ℚ := origin_to_center.dot_product ray.direction
  let c : ℚ := origin_to_center.length_squared - sp.radius * sp.radius
  match get_first_root_in_range s a half_b c t_min t_max with
  | none => none
  | some t =>
      let point := ray.atParam t
      let outward_normal := (point.sub sp.center).divs sp.radius
      let uvp := uv outward_normal
      let record : HitRecord :=
        ⟨point, outward_normal, t, uvp.1, uvp.2, false, sp.material⟩
      some (record.set_face_normal ray outward_normal)

/-- Bounding box `center ± radius`, mirroring `Sphere::bounding_box`. -/
def bounding_box (sp : Sphere) : Option AABB :=
  let radius : Vec3 := ⟨sp.radius, sp.radius, sp.radius⟩
  some ⟨sp.center.sub radius, sp.center.add radius⟩

end Sphere

/-- Moving sphere primitive, mirroring `MovingSphere` in
src/moving_sphere.rs. -/
structure MovingSphere where
  center_0 : Vec3
  time_0 : ℚ
  center_1 : Vec3
  time_1 : ℚ
  radius : ℚ
  material : Material

namespace MovingSphere

/-- Linear center interpolation, mirroring `MovingSphere::center`. -/
def center (ms : MovingSphere) (time : ℚ) : Vec3 :=
  ms.center_0.add ((ms.center_1.sub ms.center_0).smul
    ((time - ms.time_0) / (ms.time_1 - ms.time_0)))

/-- Intersection test, mirroring `impl Hittable for MovingSphere::hit`
(src/moving_sphere.rs lines 62-83).  The source duplicates
`get_first_root_in_range` verbatim (src/moving_sphere.rs lines 38-58); the
shared embedding `Sphere.get_first_root_in_range` is reused here. -/
def hit (s : ℚ → ℚ) (uv : Vec3 → ℚ × ℚ) (ms : MovingSphere) (ray : Ray)
    (t_min t_max : ℚ) : Option HitRecord :=
  let origin_to_center := ray.origin.sub (ms.center ray.time)
  let a : ℚ := ray.direction.length_squared
  let half_b : ℚ := origin_to_center.dot_product ray.direction
  let c : ℚ := origin_to_center.length_squared - ms.radius * ms.radius
  match Sphere.get_first_root_in_range s a half_b c t_min t_max with
  | none => none
  | some t =>
      let point := ray.atParam t
      let outward_normal := (point.sub (ms.center ray.time)).divs ms.radius
      let uvp := uv outward_normal
      let record : HitRecord :=
        ⟨point, outward_normal, t, uvp.1, uvp.2, false, ms.material⟩
      some (record.set_face_normal ray outward_normal)

end MovingSphere

/-- Dot product against a negated vector flips sign. -/
theorem dot_product_smul_neg_one (a b : Vec3) :
    a.dot_product (b.smul (-1)) = -(a.dot_product b) := by
  simp [Vec3.dot_product, Vec3.smul]; ring

/-- Concrete evaluation of the spec's unit-sphere probe: the ray from
`(0,0,-5)` along `+z` against the unit sphere at the origin, under the
model hypothesis that the sqrt parameter maps `1` to `1`. -/
theorem sphere_unit_example_hit (s : ℚ → ℚ) (hs1 : s 1 = 1)
    (uv : Vec3 → ℚ × ℚ) (mat : Material) :
    Sphere.hit s uv ⟨⟨0, 0, 0⟩, 1, mat⟩ ⟨⟨0, 0, -5⟩, ⟨0, 0, 1⟩, 0⟩ 0 100
      = some ⟨⟨0, 0, -1⟩, ⟨0, 0, -1⟩, 4, (uv ⟨0, 0, -1⟩).1,
          (uv ⟨0, 0, -1⟩).2, true, mat⟩ := by
  have hroot : Sphere.get_first_root_in_range s 1 (-5) 24 0 100 = some 4 := by
    unfold Sphere.get_first_root_in_range
    norm_num [hs1]
  unfold Sphere.hit
  norm_num [Vec3.sub, Vec3.dot_product, Vec3.length_squared]
  rw [hroot]
  simp [Ray.atParam, Vec3.add, Vec3.smul, Vec3.sub, Vec3.divs,
    HitRecord.set_face_normal, Vec3.dot_product]
  norm_num

/-- C6: `Sphere::hit`'s root selection: (a) a negative discriminant of the
half-b quadratic yields no hit; (b) every returned root lies strictly
inside the open interval `(t_min, t_max)`; (c) when the square root is
nonnegative, `a > 0`, and both roots lie in range, the smaller (nearer)
root `(-b - sqrt(d))/a` is returned; (d) the ray from `(0,0,-5)` along
`+z` against the unit sphere at the origin hits at `t = 4` with normal
`(0,0,-1)` and `front_face = true` (under the model hypothesis that the
sqrt parameter maps `1` to `1`, as `f64::sqrt` does). -/
theorem sphere_root_selection_and_example (s : ℚ → ℚ) :
    (∀ a b c mn mx : ℚ, b * b - a * c < 0 →
        Sphere.get_first_root_in_range s a b c mn mx = none)
    ∧ (∀ a b c mn mx root : ℚ,
        Sphere.get_first_root_in_range s a b c mn mx = some root →
        mn < root ∧ root < mx)
    ∧ (∀ a b c mn mx : ℚ, 0 < a → 0 ≤ b * b - a * c →
        0 ≤ s (b * b - a * c) →
        mn < (-b - s (b * b - a * c)) / a →
        (-b - s (b * b - a * c)) / a < mx →
        mn < (-b + s (b * b - a * c)) / a →
        (-b + s (b * b - a * c)) / a < mx →
        Sphere.get_first_root_in_range s a b c mn mx
            = some ((-b - s (b * b - a * c)) / a)
          ∧ (-b - s (b * b - a * c)) / a ≤ (-b + s (b * b - a * c)) / a)
    ∧ (s 1 = 1 → ∀ (uv : Vec3 → ℚ × ℚ) (mat : Material),
        ∃ record,
          Sphere.hit s uv ⟨⟨0, 0, 0⟩, 1, mat⟩ ⟨⟨0, 0, -5⟩, ⟨0, 0, 1⟩, 0⟩ 0 100
              = some record
            ∧ record.t = 4 ∧ record.normal = ⟨0, 0, -1⟩
            ∧ record.front_face = true) := by
  refine ⟨?_, ?_, ?_, ?_⟩
  · intro a b c mn mx h
    simp [Sphere.get_first_root_in_range, h]
  · intro a b c mn mx root
    unfold Sphere.get_first_root_in_range
    dsimp only
    split_ifs with h1 h2 h3 <;> intro h <;> simp_all
  · intro a b c mn mx ha hd hs h1 h2 h3 h4
    unfold Sphere.get_first_root_in_range
    rw [if_neg (not_lt.mpr hd)]
    dsimp only
    rw [if_pos ⟨h1, h2⟩]
    refine ⟨rfl, ?_⟩
    rw [div_le_div_iff_of_pos_right ha]
    linarith
  · intro hs1 uv mat
    exact ⟨_, sphere_unit_example_hit s hs1 uv mat, rfl, rfl, rfl⟩

/-- C6 witness: the four parts of the root-selection theorem applied at
concrete inputs, with every hypothesis discharged: (a) `a = 1, b = 0,
c = 1` has discriminant `-1 < 0`; (b) the bounds for the concrete root
`4`; (c) `a = 1, b = -5, c = 24` has both roots `4` and `6` inside
`(0, 100)`; (d) the concrete unit-sphere example. -/
theorem sphere_root_selection_and_example_witness :
    (Sphere.get_first_root_in_range (fun q => if q = 1 then 1 else 0)
        1 0 1 0 100 = none)
    ∧ ((0 : ℚ) < 4 ∧ (4 : ℚ) < 100)
    ∧ (Sphere.get_first_root_in_range (fun q => if q = 1 then 1 else 0)
          1 (-5) 24 0 100
          = some ((-(-5) - (fun q : ℚ => if q = 1 then 1 else 0)
              ((-5) * (-5) - 1 * 24)) / 1))
    ∧ (∃ record,
        Sphere.hit (fun q => if q = 1 then 1 else 0) (fun _ => (0, 0))
            ⟨⟨0, 0, 0⟩, 1, Material.dielectric 1⟩
            ⟨⟨0, 0, -5⟩, ⟨0, 0, 1⟩, 0⟩ 0 100 = some record
          ∧ record.t = 4 ∧ record.normal = ⟨0, 0, -1⟩
          ∧ record.front_face = true) := by
  refine ⟨?_, ?_, ?_, ?_⟩
  · exact (sphere_root_selection_and_example
      (fun q => if q = 1 then 1 else 0)).1 1 0 1 0 100 (by norm_num)
  · have h := (sphere_root_selection_and_example
      (fun q => if q = 1 then 1 else 0)).2.1 1 (-5) 24 0 100 4
    apply h
    unfold Sphere.get_first_root_in_range
    norm_num
  · exact ((sphere_root_selection_and_example
      (fun q => if q = 1 then 1 else 0)).2.2.1 1 (-5) 24 0 100
        (by norm_num) (by norm_num) (by norm_num) (by norm_num)
        (by norm_num) (by norm_num) (by norm_num)).1
  · exact (sphere_root_selection_and_example
      (fun q => if q = 1 then 1 else 0)).2.2.2 (by norm_num)
      (fun _ => (0, 0)) (Material.dielectric 1)

/-- C7: the normal-orientation rule is shared and effective: (a)
`set_face_normal` stores `front_face = (dot(ray.direction, outward) < 0)`
and `normal = outward` when front-facing, else its negation, and in both
cases the stored normal satisfies `dot(ray.direction, normal) <= 0`; (b)
every record returned by `Sphere::hit` has `front_face` and `normal`
determined by that rule from its outward normal
`(point - center) / radius`, and `dot(ray.direction, normal) <= 0`; (c)
likewise for `MovingSphere::hit` with the time-dependent center. -/
theorem hit_record_normal_orientation :
    (∀ (record : HitRecord) (ray : Ray) (outward : Vec3),
        ((record.set_face_normal ray outward).front_face
            = decide (ray.direction.dot_product outward < 0))
        ∧ ((record.set_face_normal ray outward).normal
            = if ray.direction.dot_product outward < 0 then outward
              else outward.smul (-1))
        ∧ ray.direction.dot_product
            (record.set_face_normal ray outward).normal ≤ 0)
    ∧ (∀ s uv sp ray t_min t_max record,
        Sphere.hit s uv sp ray t_min t_max = some record →
        (record.front_face = decide (ray.direction.dot_product
            ((record.point.sub sp.center).divs sp.radius) < 0))
        ∧ ray.direction.dot_product record.normal ≤ 0)
    ∧ (∀ s uv ms ray t_min t_max record,
        MovingSphere.hit s uv ms ray t_min t_max = some record →
        (record.front_face = decide (ray.direction.dot_product
            ((record.point.sub (ms.center ray.time)).divs ms.radius) < 0))
        ∧ ray.direction.dot_product record.normal ≤ 0) := by
  have base : ∀ (record : HitRecord) (ray : Ray) (outward : Vec3),
      ((record.set_face_normal ray outward).front_face
          = decide (ray.direction.dot_product outward < 0))
      ∧ ((record.set_face_normal ray outward).normal
          = if ray.direction.dot_product outward < 0 then outward
            else outward.smul (-1))
      ∧ ray.direction.dot_product
          (record.set_face_normal ray outward).normal ≤ 0 := by
    intro record ray outward
    unfold HitRecord.set_face_normal
    by_cases h : ray.direction.dot_product outward < 0
    · simp [h, le_of_lt h]
    · simp [h, dot_product_smul_neg_one]
      linarith [not_lt.mp h]
  refine ⟨base, ?_, ?_⟩
  · intro s uv sp ray t_min t_max record hhit
    unfold Sphere.hit at hhit
    dsimp only at hhit
    rcases hfr : Sphere.get_first_root_in_range s
        (ray.direction.length_squared)
        ((ray.origin.sub sp.center).dot_product ray.direction)
        ((ray.origin.sub sp.center).length_squared - sp.radius * sp.radius)
        t_min t_max with _ | t
    · rw [hfr] at hhit; cases hhit
    · rw [hfr] at hhit
      dsimp only at hhit
      obtain ⟨h1, h2, h3⟩ := base
        ⟨ray.atParam t, (((ray.atParam t).sub sp.center).divs sp.radius), t,
          (uv (((ray.atParam t).sub sp.center).divs sp.radius)).1,
          (uv (((ray.atParam t).sub sp.center).divs sp.radius)).2,
          false, sp.material⟩
        ray (((ray.atParam t).sub sp.center).divs sp.radius)
      injection hhit with hrec
      subst hrec
      refine ⟨?_, h3⟩
      have hpoint : (HitRecord.set_face_normal
          ⟨ray.atParam t, (((ray.atParam t).sub sp.center).divs sp.radius), t,
            (uv (((ray.atParam t).sub sp.center).divs sp.radius)).1,
            (uv (((ray.atParam t).sub sp.center).divs sp.radius)).2,
            false, sp.material⟩ ray
          (((ray.atParam t).sub sp.center).divs sp.radius)).point
          = ray.atParam t := by
        unfold HitRecord.set_face_normal
        rfl
      rw [hpoint, h1]
  · intro s uv ms ray t_min t_max record hhit
    unfold MovingSphere.hit at hhit
    dsimp only at hhit
    rcases hfr : Sphere.get_first_root_in_range s
        (ray.direction.length_squared)
        ((ray.origin.sub (ms.center ray.time)).dot_product ray.direction)
        ((ray.origin.sub (ms.center ray.time)).length_squared
          - ms.radius * ms.radius)
        t_min t_max with _ | t
    · rw [hfr] at hhit; cases hhit
    · rw [hfr] at hhit
      dsimp only at hhit
      obtain ⟨h1, h2, h3⟩ := base
        ⟨ray.atParam t,
          (((ray.atParam t).sub (ms.center ray.time)).divs ms.radius), t,
          (uv (((ray.atParam t).sub (ms.center ray.time)).divs ms.radius)).1,
          (uv (((ray.atParam t).sub (ms.center ray.time)).divs ms.radius)).2,
          false, ms.material⟩
        ray (((ray.atParam t).sub (ms.center ray.time)).divs ms.radius)
      injection hhit with hrec
      subst hrec
      refine ⟨?_, h3⟩
      have hpoint : (HitRecord.set_face_normal
          ⟨ray.atParam t,
            (((ray.atParam t).sub (ms.center ray.time)).divs ms.radius), t,
            (uv (((ray.atParam t).sub (ms.center ray.time)).divs
              ms.radius)).1,
            (uv (((ray.atParam t).sub (ms.center ray.time)).divs
              ms.radius)).2,
            false, ms.material⟩ ray
          (((ray.atParam t).sub (ms.center ray.time)).divs ms.radius)).point
          = ray.atParam t := by
        unfold HitRecord.set_face_normal
        rfl
      rw [hpoint, h1]

/-- C7 witness: the orientation rule evaluated on the concrete unit-sphere
example; the returned record is front-facing and its normal opposes the
ray direction. -/
theorem hit_record_normal_orientation_witness :
    ∃ record,
      Sphere.hit (fun q => if q = 1 then 1 else 0)
          (fun _ => ((0 : ℚ), (0 : ℚ)))
          ⟨⟨0, 0, 0⟩, 1, Material.dielectric 1⟩
          ⟨⟨0, 0, -5⟩, ⟨0, 0, 1⟩, 0⟩ 0 100 = some record
      ∧ (record.front_face = decide ((⟨0, 0, 1⟩ : Vec3).dot_product
          ((record.point.sub (⟨0, 0, 0⟩ : Vec3)).divs 1) < 0))
      ∧ (⟨0, 0, 1⟩ : Vec3).dot_product record.normal ≤ 0 := by
  have hhit := sphere_unit_example_hit (fun q => if q = 1 then 1 else 0)
    (by norm_num) (fun _ => (0, 0)) (Material.dielectric 1)
  obtain ⟨h1, h2⟩ := hit_record_normal_orientation.2.1
    (fun q => if q = 1 then 1 else 0) (fun _ => (0, 0))
    ⟨⟨0, 0, 0⟩, 1, Material.dielectric 1⟩ ⟨⟨0, 0, -5⟩, ⟨0, 0, 1⟩, 0⟩ 0 100
    _ hhit
  exact ⟨_, hhit, h1, h2⟩

/-- C8: `Material::scatter` returns `None` (absorption) if and only if the
material is Metal and the fuzzed scattered direction `reflect(unit(dir),
normal) + rv * fuzz` satisfies `dot(scattered.direction, normal) <= 0`;
Lambertian and Dielectric always return `Some` scattering, for every
incoming ray, hit record and random outcome. -/
theorem scatter_none_iff_metal_absorbed (s : ℚ → ℚ) (rv : Vec3) (rf : ℚ)
    (m : Material) (inc_ray : Ray) (record : HitRecord) :
    scatter s rv rf m inc_ray record = none ↔
      ∃ albedo fuzz, m = Material.metal albedo fuzz ∧
        ((Vec3.reflect (inc_ray.direction.unit_vector s)
          record.normal).add (rv.smul fuzz)).dot_product record.normal ≤ 0 := by
  cases m with
  | lambertian albedo =>
      unfold scatter
      dsimp only
      split_ifs <;> simp
  | metal albedo fuzz =>
      unfold scatter
      dsimp only
      split_ifs with h
      · simp only [reduceCtorEq, false_iff, not_exists]
        rintro a f ⟨heq, hle⟩
        injection heq with ha hf
        subst ha; subst hf
        exact absurd hle (not_le.mpr h)
      · simp only [true_iff]
        exact ⟨albedo, fuzz, rfl, not_lt.mp h⟩
  | dielectric ior =>
      unfold scatter
      dsimp only
      split_ifs <;> simp

/-- Dot product of a negated vector flips sign (left argument). -/
theorem smul_neg_one_dot (a b : Vec3) :
    (a.smul (-1)).dot_product b = -(a.dot_product b) := by
  simp [Vec3.dot_product, Vec3.smul]; ring

/-- Snell refraction with ratio `1` between genuine unit vectors returns
the incident direction unchanged, provided the sqrt model is exact on the
one value it is applied to (`cos^2`). -/
theorem refract_ratio_one (s : ℚ → ℚ) (u n : Vec3) (c : ℚ)
    (hc : c = -(u.dot_product n))
    (hul : u.length_squared = 1) (hnl : n.length_squared = 1)
    (hc0 : 0 ≤ c) (hc1 : c ≤ 1)
    (hcos : s (c * c) = c) :
    Vec3.refract s u n 1 = u := by
  have hdot : u.dot_product n = -c := by linarith
  have hmin : min (u.dot_product (n.smul (-1))) 1 = c := by
    rw [dot_product_smul_neg_one, hdot]
    simpa using hc1
  unfold Vec3.refract
  dsimp only
  rw [hmin]
  have hperp : ((u.add (n.smul c)).smul 1).length_squared = 1 - c * c := by
    simp only [Vec3.length_squared, Vec3.add, Vec3.smul]
    simp only [Vec3.length_squared] at hul hnl
    simp only [Vec3.dot_product] at hdot
    linear_combination hul + (2 * c) * hdot + (c * c) * hnl
  rw [hperp]
  have habs : |1 - (1 - c * c)| = c * c := by
    rw [show (1 : ℚ) - (1 - c * c) = c * c by ring]
    exact abs_of_nonneg (mul_self_nonneg c)
  rw [habs, hcos]
  cases u with
  | mk ux uy uz =>
    cases n with
    | mk nx ny nz =>
      simp only [Vec3.add, Vec3.smul, Vec3.mk.injEq]
      refine ⟨by ring, by ring, by ring⟩

/-- C9 counterexample: the claim fails on the code.  With
`index_of_refraction = 1`, a front-face hit whose unit normal makes
`cos_theta = 4/5` with the incident direction, and random float `0`,
Schlick's reflectance `(1 - 4/5)^5 = 1/3125` exceeds the draw, so the
Dielectric branch reflects: the scattered direction `(24/25, 0, -7/25)`
differs from the unit incident direction `(0, 0, 1)` — the ray is bent
for this random outcome. -/
theorem dielectric_ior_one_bends_cex :
    ∃ sc, scatter
        (fun q => if q = 9/25 then 3/5 else if q = 1 then 1 else 0)
        ⟨0, 0, 0⟩ 0 (Material.dielectric 1)
        ⟨⟨0, 0, 0⟩, ⟨0, 0, 1⟩, 0⟩
        ⟨⟨0, 0, 0⟩, ⟨3/5, 0, -4/5⟩, 0, 0, 0, true, Material.dielectric 1⟩
        = some sc
      ∧ sc.scattered.direction ≠ Vec3.unit_vector
          (fun q => if q = 9/25 then 3/5 else if q = 1 then 1 else 0)
          ⟨0, 0, 1⟩ := by
  have hu : Vec3.unit_vector
      (fun q => if q = 9/25 then 3/5 else if q = 1 then 1 else 0)
      ⟨0, 0, 1⟩ = ⟨0, 0, 1⟩ := by
    norm_num [Vec3.unit_vector, Vec3.divs, Vec3.length_squared]
  have hsc : scatter
      (fun q => if q = 9/25 then 3/5 else if q = 1 then 1 else 0)
      ⟨0, 0, 0⟩ 0 (Material.dielectric 1)
      ⟨⟨0, 0, 0⟩, ⟨0, 0, 1⟩, 0⟩
      ⟨⟨0, 0, 0⟩, ⟨3/5, 0, -4/5⟩, 0, 0, 0, true, Material.dielectric 1⟩
      = some ⟨⟨1, 1, 1⟩, ⟨⟨0, 0, 0⟩, ⟨24/25, 0, -7/25⟩, 0⟩⟩ := by
    unfold scatter
    dsimp only
    rw [hu]
    norm_num [Vec3.dot_product, Vec3.smul, Vec3.reflect, Vec3.sub,
      reflectance]
  refine ⟨_, hsc, ?_⟩
  rw [hu]
  simp [Vec3.mk.injEq]

/-- C9 (amended): for a Dielectric with `index_of_refraction = 1` the
refraction branch never bends the ray — whenever Schlick's reflectance
does not exceed the random draw, the scattered direction equals the unit
incident direction — but the reflectance test can still stochastically
choose the mirror reflection, so not every random outcome leaves the ray
unbent.  Stated for a front-consistent hit (`cos = -dot(unit(dir),
normal)` in `[0, 1]`, unit incident and normal vectors) with the sqrt
model exact on the two values this branch applies it to. -/
theorem dielectric_unit_ior_branch_characterization
    (s : ℚ → ℚ) (rv : Vec3) (rf : ℚ) (inc_ray : Ray) (record : HitRecord)
    (c : ℚ)
    (hc : c = -((inc_ray.direction.unit_vector s).dot_product record.normal))
    (hul : (inc_ray.direction.unit_vector s).length_squared = 1)
    (hnl : record.normal.length_squared = 1)
    (hc0 : 0 ≤ c) (hc1 : c ≤ 1)
    (hsin0 : 0 ≤ s (1 - c * c))
    (hsin2 : s (1 - c * c) * s (1 - c * c) = 1 - c * c)
    (hcos : s (c * c) = c) :
    scatter s rv rf (Material.dielectric 1) inc_ray record
      = some ⟨⟨1, 1, 1⟩,
          ⟨record.point,
            if reflectance c 1 > rf
            then Vec3.reflect (inc_ray.direction.unit_vector s) record.normal
            else inc_ray.direction.unit_vector s,
            inc_ray.time⟩⟩ := by
  unfold scatter
  dsimp only
  have hratio : (if record.front_face then (1 : ℚ) / 1 else 1) = 1 := by
    split_ifs <;> norm_num
  rw [hratio]
  have hmin : min (((inc_ray.direction.unit_vector s).smul (-1)).dot_product
      record.normal) 1 = c := by
    rw [smul_neg_one_dot, ← hc]
    exact min_eq_left hc1
  rw [hmin]
  have hnr : ¬ ((1 : ℚ) * s (1 - c * c) > 1) := by
    intro h
    rw [one_mul] at h
    nlinarith
  by_cases hrf : reflectance c 1 > rf
  · rw [if_pos (Or.inr hrf), if_pos hrf]
  · have hcond : ¬ ((1 : ℚ) * s (1 - c * c) > 1 ∨ reflectance c 1 > rf) := by
      rintro (h | h)
      · exact hnr h
      · exact hrf h
    rw [if_neg hcond, if_neg hrf,
      refract_ratio_one s _ record.normal c hc hul hnl hc0 hc1 hcos]

/-- C9 amended-claim witness: the branch characterization applied at a
concrete front-face hit with `cos = 4/5` and random float `1`; here
reflectance `1/3125` does not exceed the draw, so the refract branch runs
and the direction is the unit incident direction. -/
theorem dielectric_unit_ior_branch_characterization_witness :
    scatter
      (fun q => if q = 9/25 then 3/5 else if q = 16/25 then 4/5
        else if q = 1 then 1 else 0)
      ⟨0, 0, 0⟩ 1 (Material.dielectric 1)
      ⟨⟨0, 0, 0⟩, ⟨0, 0, 1⟩, 0⟩
      ⟨⟨0, 0, 0⟩, ⟨3/5, 0, -4/5⟩, 0, 0, 0, true, Material.dielectric 1⟩
      = some ⟨⟨1, 1, 1⟩,
          ⟨⟨0, 0, 0⟩,
            if reflectance (4/5) 1 > 1
            then Vec3.reflect (Vec3.unit_vector
              (fun q => if q = 9/25 then 3/5 else if q = 16/25 then 4/5
                else if q = 1 then 1 else 0) ⟨0, 0, 1⟩) ⟨3/5, 0, -4/5⟩
            else Vec3.unit_vector
              (fun q => if q = 9/25 then 3/5 else if q = 16/25 then 4/5
                else if q = 1 then 1 else 0) ⟨0, 0, 1⟩,
            0⟩⟩ :=
  dielectric_unit_ior_branch_characterization
    (fun q => if q = 9/25 then 3/5 else if q = 16/25 then 4/5
      else if q = 1 then 1 else 0)
    ⟨0, 0, 0⟩ 1 ⟨⟨0, 0, 0⟩, ⟨0, 0, 1⟩, 0⟩
    ⟨⟨0, 0, 0⟩, ⟨3/5, 0, -4/5⟩, 0, 0, 0, true, Material.dielectric 1⟩
    (4/5)
    (by norm_num [Vec3.unit_vector, Vec3.divs, Vec3.length_squared,
      Vec3.dot_product])
    (by norm_num [Vec3.unit_vector, Vec3.divs, Vec3.length_squared])
    (by norm_num [Vec3.length_squared])
    (by norm_num) (by norm_num)
    (by norm_num) (by norm_num) (by norm_num)

/-- Trait object `Box<dyn Hittable>` (src/hittable.rs) modelled as its two
capabilities: the `hit` method over a parametric interval and the
`bounding_box` method over a time interval. -/
structure Obj where
  hit : Ray → ℚ → ℚ → Option HitRecord
  bounding_box : ℚ → ℚ → Option AABB

/-- The two `panic!` sites of `BVH::construct` (src/bvh_v3.rs); Rust
panics have no return channel, so the embedding surfaces them as
`Except.error` of this type. -/
inductive Panic where
  | emptyList
  | noBoundingBox
deriving DecidableEq

/-- The exact source message of each panic site. -/
def Panic.message : Panic → String
  | Panic.emptyList => "Cannot have 0 objects in list during BVH construction"
  | Panic.noBoundingBox => "No bounding box in BVH node"

/-- BVH node, mirroring `enum BVH` in src/bvh_v3.rs: a leaf wrapping one
hittable, or a branch with two children and a cached union box. -/
inductive BVH where
  | leaf (obj : Obj)
  | branch (left : BVH) (right : BVH) (bounding_box : AABB)

namespace BVH

/-- Traversal, mirroring `impl Hittable for BVH::hit` (src/bvh_v3.rs lines
110-145): a leaf delegates; a branch returns `None` when its cached box is
missed, otherwise tests the left subtree over `[t_min, t_max]`, shrinks
the upper bound to the left hit's `t` (if any), tests the right subtree
over the shrunk interval, and of two hits keeps the one with smaller `t`
(`if x.t < y.t then x else y`). -/
def hit (node : BVH) (ray : Ray) (t_min t_max : ℚ) : Option HitRecord :=
  match node with
  | leaf t => t.hit ray t_min t_max
  | branch left right bounding_box =>
      if bounding_box.hit ray t_min t_max = false then none
      else
        let left_hit := left.hit ray t_min t_max
        let e : ℚ :=
          match left_hit with
          | some h => h.t
          | none => t_max
        let right_hit := right.hit ray t_min e
        match left_hit, right_hit with
        | none, none => none
        | none, some y => some y
        | some x, none => some x
        | some x, some y => if x.t < y.t then some x else some y

/-- Bounding box of a node, mirroring `impl Hittable for
BVH::bounding_box` (src/bvh_v3.rs lines 148-157). -/
def bounding_box (node : BVH) (t0 t1 : ℚ) : Option AABB :=
  match node with
  | leaf t => t.bounding_box t0 t1
  | branch _ _ bb => some bb

end BVH

/-- Comparator key of the construction sort: the minimum corner of the
object's bounding box on the chosen axis (`0 -> x, 1 -> y, else z`),
mirroring the axis match inside the `sort_by` closure of `BVH::construct`
(src/bvh_v3.rs lines 56-69).  The `none` arm is unreachable under the
all-boxes check that models the closure's panics. -/
def sortKey (t0 t1 : ℚ) (axis : ℕ) (o : Obj) : ℚ :=
  match o.bounding_box t0 t1 with
  | some q => if axis = 0 then q.minimum.x
              else if axis = 1 then q.minimum.y
              else q.minimum.z
  | none => 0

/-- Construction, mirroring `BVH::construct` (src/bvh_v3.rs lines
37-106).  The source draws `axis = random_int_in_range(0, 3)` at every
call; the draw is modelled by the oracle `axes` applied to the call's node
path (`path` grows by `true` for the right recursion, `false` for the
left), so theorems quantify over every possible sequence of draws.  An
empty list panics; a singleton becomes a leaf; otherwise the list is
sorted by the minimum corner of each object's bounding box on the chosen
axis (the source comparator panics from inside `sort_by` when any
compared object lacks a box; the embedding performs that check up front),
split at `len / 2` — the source drains the upper half for the right child
first, then recurses on the retained lower half for the left child — and
the node's box is the union of the children's boxes, a missing child box
being the other panic. -/
def construct (axes : List Bool → ℕ) (path : List Bool) (t0 t1 : ℚ) :
    (list : List Obj) → Except Panic BVH
  | [] => Except.error Panic.emptyList
  | [o] => Except.ok (BVH.leaf o)
  | o₁ :: o₂ :: rest =>
      let l := o₁ :: o₂ :: rest
      if l.all (fun o => (o.bounding_box t0 t1).isSome) then
        let axis := axes path
        let sorted := l.mergeSort
          (fun a b => decide (sortKey t0 t1 axis a ≤ sortKey t0 t1 axis b))
        match construct axes (true :: path) t0 t1
            (sorted.drop (l.length / 2)) with
        | Except.error p => Except.error p
        | Except.ok right =>
            match construct axes (false :: path) t0 t1
                (sorted.take (l.length / 2)) with
            | Except.error p => Except.error p
            | Except.ok left =>
                match left.bounding_box t0 t1, right.bounding_box t0 t1 with
                | some q, some u =>
                    Except.ok (BVH.branch left right (AABB.surrounding_box q u))
                | _, _ => Except.error Panic.noBoundingBox
      else Except.error Panic.noBoundingBox
  termination_by list => list.length
  decreasing_by
    · simp [List.length_mergeSort]
      omega
    · simp [List.length_mergeSort]
      omega

/-- Aggregate scan loop of `impl Hittable for HittableList::hit`
(src/hittable_list.rs lines 27-41): fold over the objects, narrowing the
upper bound to the closest hit found so far. -/
def hlHitAux (ray : Ray) (t_min : ℚ) :
    List Obj → ℚ → Option HitRecord → Option HitRecord
  | [], _, result => result
  | o :: rest, closest_so_far, result =>
      match o.hit ray t_min closest_so_far with
      | some h => hlHitAux ray t_min rest h.t (some h)
      | none => hlHitAux ray t_min rest closest_so_far result

/-- Linear scan, mirroring `HittableList::hit`: start from
`closest_so_far = t_max` and no result. -/
def hlHit (objects : List Obj) (ray : Ray) (t_min t_max : ℚ) :
    Option HitRecord :=
  hlHitAux ray t_min objects t_max none

/-- Projection of a hit record to the observable data the equivalence
claim compares: hit parameter and hit point. -/
def proj (h : HitRecord) : ℚ × Vec3 := (h.t, h.point)

/-- Minimum of a list of rationals, `none` on the empty list. -/
def minQ : List ℚ → Option ℚ
  | [] => none
  | q :: rest =>
      match minQ rest with
      | none => some q
      | some m => some (min q m)

theorem minQ_eq_none_iff {l : List ℚ} : minQ l = none ↔ l = [] := by
  cases l with
  | nil => simp [minQ]
  | cons q rest =>
      simp only [minQ]
      cases minQ rest <;> simp

theorem minQ_mem : ∀ {l : List ℚ} {m : ℚ}, minQ l = some m → m ∈ l := by
  intro l
  induction l with
  | nil => intro m h; cases h
  | cons q rest ih =>
      intro m h
      simp only [minQ] at h
      cases hr : minQ rest with
      | none => rw [hr] at h; injection h with h; simp [← h]
      | some m' =>
          rw [hr] at h
          injection h with h
          rcases min_cases q m' with ⟨hmin, _⟩ | ⟨hmin, _⟩
          · rw [← h, hmin]; exact List.mem_cons_self q rest
          · rw [← h, hmin]; exact List.mem_cons_of_mem q (ih hr)

theorem minQ_le : ∀ {l : List ℚ} {m : ℚ}, minQ l = some m →
    ∀ x ∈ l, m ≤ x := by
  intro l
  induction l with
  | nil => intro m h; cases h
  | cons q rest ih =>
      intro m h x hx
      simp only [minQ] at h
      cases hr : minQ rest with
      | none =>
          rw [hr] at h
          injection h with h
          rw [minQ_eq_none_iff] at hr
          subst hr
          simp at hx
          rw [← h, hx]
      | some m' =>
          rw [hr] at h
          injection h with h
          rcases List.mem_cons.mp hx with hq | hrest
          · rw [← h, hq]; exact min_le_left _ _
          · exact le_trans (h ▸ min_le_right q m') (ih hr x hrest)

theorem minQ_of_mem_le : ∀ {l : List ℚ} {m : ℚ}, m ∈ l →
    (∀ x ∈ l, m ≤ x) → minQ l = some m := by
  intro l
  induction l with
  | nil => intro m h; cases h
  | cons q rest ih =>
      intro m hm hle
      simp only [minQ]
      cases hr : minQ rest with
      | none =>
          have hre : rest = [] := minQ_eq_none_iff.mp hr
          subst hre
          simp at hm
          rw [hm]
      | some m' =>
          have hm'le : m ≤ m' := hle m' (List.mem_cons_of_mem q (minQ_mem hr))
          have hqle : m ≤ q := hle q (List.mem_cons_self q rest)
          have hge : min q m' ≤ m := by
            rcases List.mem_cons.mp hm with hq | hrest
            · rw [← hq]; exact min_le_left _ _
            · exact le_trans (min_le_right q m') (minQ_le hr m hrest)
          have heq : min q m' = m := le_antisymm hge (le_min hqle hm'le)
          have hred : (match some m' with
              | none => some q
              | some m => some (min q m)) = some (min q m') := rfl
          rw [hred, heq]

theorem minQ_perm {l₁ l₂ : List ℚ} (h : l₁.Perm l₂) : minQ l₁ = minQ l₂ := by
  cases h1 : minQ l₁ with
  | none =>
      rw [minQ_eq_none_iff] at h1
      subst h1
      have h2 : l₂ = [] := h.nil_eq.symm
      rw [h2]
      rfl
  | some m =>
      rw [minQ_of_mem_le (h.mem_iff.mp (minQ_mem h1))
        (fun x hx => minQ_le h1 x (h.mem_iff.mpr hx))]

/-- C3 counterexample: the claim fails on the code.  `BVH::construct` of
an empty list does not surface an error value to the caller — its Rust
return type (`Self`) has no error channel — it panics.  In the embedding
`Except.error` is exactly the model of `panic!` unwinding, and the empty
input reaches the explicit panic site whose message is the dedicated
empty-input text, here at a fixed axis oracle and time interval. -/
theorem construct_empty_panics_cex :
    construct (fun _ => 0) [] 0 1 ([] : List Obj)
        = Except.error Panic.emptyList
      ∧ Panic.emptyList.message
        = "Cannot have 0 objects in list during BVH construction" :=
  ⟨by simp [construct], rfl⟩

/-- C3 (amended): constructing a BVH from an empty object list fails fast
with the explicit `panic!` of the dedicated empty-input check — carrying
the descriptive message of src/bvh_v3.rs line 43 — rather than crashing
via an unchecked `unwrap`; no error value is returned to the caller,
since `construct` returns `Self` and panics instead. -/
theorem construct_empty_explicit_panic (axes : List Bool → ℕ)
    (path : List Bool) (t0 t1 : ℚ) :
    construct axes path t0 t1 ([] : List Obj) = Except.error Panic.emptyList
      ∧ Panic.emptyList.message
        = "Cannot have 0 objects in list during BVH construction" :=
  ⟨by simp [construct], rfl⟩

/-- C10: `BVH::construct` terminates on every non-empty input (it is a
total function of the embedding, defined by well-founded recursion on the
list length: with `n >= 2` the recursive calls receive the sorted list's
`drop (n / 2)` and `take (n / 2)`, of lengths `n - n / 2` and `n / 2`,
both strictly smaller than `n` and non-empty), and the zero-objects panic
branch is unreachable for every non-empty input — it fires exactly on the
empty top-level list. -/
theorem construct_nonempty_never_empty_panic (axes : List Bool → ℕ)
    (t0 t1 : ℚ) :
    (∀ (objs : List Obj) (path : List Bool), objs ≠ [] →
        construct axes path t0 t1 objs ≠ Except.error Panic.emptyList)
    ∧ (∀ path : List Bool,
        construct axes path t0 t1 ([] : List Obj)
          = Except.error Panic.emptyList) := by
  constructor
  · have main : ∀ (n : ℕ) (objs : List Obj) (path : List Bool),
        objs.length = n → objs ≠ [] →
        construct axes path t0 t1 objs ≠ Except.error Panic.emptyList := by
      intro n
      induction n using Nat.strong_induction_on with
      | _ n IH =>
        intro objs path hlen hne
        rcases objs with _ | ⟨o₁, _ | ⟨o₂, rest⟩⟩
        · exact absurd rfl hne
        · simp [construct]
        · unfold construct
          dsimp only
          split_ifs with hall
          · set S := (o₁ :: o₂ :: rest).mergeSort
              (fun a b => decide (sortKey t0 t1 (axes path) a
                ≤ sortKey t0 t1 (axes path) b)) with hS
            have hslen : S.length = rest.length + 2 := by
              rw [hS, List.length_mergeSort]
              simp
            rcases hR : construct axes (true :: path) t0 t1
                (S.drop ((o₁ :: o₂ :: rest).length / 2)) with p | right
            · have hdne : S.drop ((o₁ :: o₂ :: rest).length / 2) ≠ [] := by
                apply List.ne_nil_of_length_pos
                rw [List.length_drop, hslen]
                simp
                omega
              have hrec := IH (S.drop ((o₁ :: o₂ :: rest).length / 2)).length
                (by rw [List.length_drop, hslen, ← hlen]; simp; omega)
                (S.drop ((o₁ :: o₂ :: rest).length / 2)) (true :: path)
                rfl hdne
              rw [hR] at hrec
              intro hcontra
              injection hcontra with hp
              exact hrec (by rw [hp])
            · rcases hL : construct axes (false :: path) t0 t1
                  (S.take ((o₁ :: o₂ :: rest).length / 2)) with p | left
              · have htne : S.take ((o₁ :: o₂ :: rest).length / 2) ≠ [] := by
                  apply List.ne_nil_of_length_pos
                  rw [List.length_take, hslen]
                  simp
                  omega
                have htrec := IH
                  (S.take ((o₁ :: o₂ :: rest).length / 2)).length
                  (by rw [List.length_take, hslen, ← hlen]; simp; omega)
                  (S.take ((o₁ :: o₂ :: rest).length / 2)) (false :: path)
                  rfl htne
                rw [hL] at htrec
                intro hcontra
                injection hcontra with hp
                exact htrec (by rw [hp])
              · rcases hbl : left.bounding_box t0 t1 with _ | q <;>
                  rcases hbr : right.bounding_box t0 t1 with _ | u <;>
                    simp [hbl, hbr]
          · simp
    intro objs path hne
    exact main objs.length objs path rfl hne
  · intro path
    simp [construct]

/-- C10 witness: a concrete singleton list is non-empty and its
construction does not yield the zero-objects panic. -/
theorem construct_nonempty_never_empty_panic_witness :
    ([⟨fun _ _ _ => none, fun _ _ => none⟩] : List Obj) ≠ []
    ∧ construct (fun _ => 0) [] 0 1
        ([⟨fun _ _ _ => none, fun _ _ => none⟩] : List Obj)
        ≠ Except.error Panic.emptyList :=
  ⟨by simp,
    (construct_nonempty_never_empty_panic (fun _ => 0) 0 1).1
      [⟨fun _ _ _ => none, fun _ _ => none⟩] [] (by simp)⟩

/-- The Hittable interval contract on every leaf of a tree: a hit over
`(a, b)` reports a parameter strictly inside `(a, b)` (spec section 4.2,
requirement (b) on `hit` implementations). -/
def RespectsInterval : BVH → Prop
  | BVH.leaf o => ∀ ray a b h, o.hit ray a b = some h → a < h.t ∧ h.t < b
  | BVH.branch l r _ => RespectsInterval l ∧ RespectsInterval r

/-- BVH traversal preserves the interval contract: under
contract-respecting leaves, any returned hit lies strictly inside the
queried interval. -/
theorem bvh_hit_mem (T : BVH) (hT : RespectsInterval T) :
    ∀ ray a b h, BVH.hit T ray a b = some h → a < h.t ∧ h.t < b := by
  induction T with
  | leaf o =>
      intro ray a b h hh
      exact hT ray a b h hh
  | branch l r bb ihl ihr =>
      obtain ⟨hrl, hrr⟩ := hT
      intro ray a b h hh
      unfold BVH.hit at hh
      dsimp only at hh
      by_cases hbb : bb.hit ray a b = false
      · rw [if_pos hbb] at hh; cases hh
      · rw [if_neg hbb] at hh
        rcases hlh : BVH.hit l ray a b with _ | x
        · rw [hlh] at hh
          rcases hrh : BVH.hit r ray a b with _ | y
          · rw [hrh] at hh; cases hh
          · rw [hrh] at hh
            injection hh with hh
            subst hh
            exact ihr hrr ray a b _ hrh
        · rw [hlh] at hh
          rcases hrh : BVH.hit r ray a x.t with _ | y
          · rw [hrh] at hh
            injection hh with hh
            subst hh
            exact ihl hrl ray a b _ hlh
          · rw [hrh] at hh
            dsimp only at hh
            split_ifs at hh with hxy
            · injection hh with hh
              subst hh
              exact ihl hrl ray a b _ hlh
            · injection hh with hh
              subst hh
              obtain ⟨hy1, hy2⟩ := ihr hrr ray a x.t _ hrh
              obtain ⟨hx1, hx2⟩ := ihl hrl ray a b x hlh
              exact ⟨hy1, lt_trans hy2 hx2⟩

/-- C4 (amended): traversal of a Branch node: (a) a missed cached box
returns `None` immediately; (b) with no left hit the result is the right
subtree's hit over the full interval; (c) a left hit and no right hit over
the shrunk interval `(t_min, t_left)` returns the left hit; (d) under the
interval contract on the right subtree, any right hit over the shrunk
interval has `t` strictly smaller than `t_left`, and then the right hit is
the result — so the result is always the hit with smaller `t`; (e) if both
subtrees return hits with equal `t` (possible only when a leaf violates
the interval contract, since the right subtree is queried strictly below
`t_left`), the right result — not the left — is returned, because the
source keeps `x` only when `x.t < y.t`. -/
theorem bvh_branch_traversal (l r : BVH) (bb : AABB) (ray : Ray)
    (a b : ℚ) :
    (bb.hit ray a b = false → BVH.hit (BVH.branch l r bb) ray a b = none)
    ∧ (bb.hit ray a b = true → BVH.hit l ray a b = none →
        BVH.hit (BVH.branch l r bb) ray a b = BVH.hit r ray a b)
    ∧ (∀ x, bb.hit ray a b = true → BVH.hit l ray a b = some x →
        BVH.hit r ray a x.t = none →
        BVH.hit (BVH.branch l r bb) ray a b = some x)
    ∧ (∀ x y, RespectsInterval r → bb.hit ray a b = true →
        BVH.hit l ray a b = some x → BVH.hit r ray a x.t = some y →
        y.t < x.t ∧ BVH.hit (BVH.branch l r bb) ray a b = some y)
    ∧ (∀ x y, bb.hit ray a b = true → BVH.hit l ray a b = some x →
        BVH.hit r ray a x.t = some y → ¬ x.t < y.t →
        BVH.hit (BVH.branch l r bb) ray a b = some y) := by
  refine ⟨?_, ?_, ?_, ?_, ?_⟩
  · intro hbb
    unfold BVH.hit
    rw [hbb, if_pos rfl]
  · intro hbb hln
    rcases hrh : BVH.hit r ray a b with _ | y <;>
      · unfold BVH.hit
        dsimp only
        rw [hbb, if_neg (by simp : ¬ (true = false)), hln]
        dsimp only
        rw [hrh]
  · intro x hbb hlx hrn
    unfold BVH.hit
    dsimp only
    rw [hbb, if_neg (by simp : ¬ (true = false)), hlx]
    dsimp only
    rw [hrn]
  · intro x y hresp hbb hlx hry
    have hyt := (bvh_hit_mem r hresp ray a x.t y hry).2
    refine ⟨hyt, ?_⟩
    unfold BVH.hit
    dsimp only
    rw [hbb, if_neg (by simp : ¬ (true = false)), hlx]
    dsimp only
    rw [hry]
    dsimp only
    rw [if_neg (not_lt.mpr (le_of_lt hyt))]
  · intro x y hbb hlx hry hnlt
    unfold BVH.hit
    dsimp only
    rw [hbb, if_neg (by simp : ¬ (true = false)), hlx]
    dsimp only
    rw [hry]
    dsimp only
    rw [if_neg hnlt]

/-- C4 counterexample: the tie clause of the claim fails on the code.
Two leaves whose `hit` implementations ignore the search interval (legal
for a `Box<dyn Hittable>`) both report `t = 1`; the Branch box is hit, so
both subtree hits survive with equal `t`, and the source's
`if x.t < y.t then x else y` returns the RIGHT result (hit point
`(2,0,0)`), not the left one (hit point `(1,0,0)`). -/
theorem bvh_branch_tie_prefers_right_cex :
    BVH.hit
      (BVH.branch
        (BVH.leaf ⟨fun _ _ _ => some ⟨⟨1, 0, 0⟩, ⟨0, 0, 1⟩, 1, 0, 0, true,
          Material.dielectric 1⟩, fun _ _ => none⟩)
        (BVH.leaf ⟨fun _ _ _ => some ⟨⟨2, 0, 0⟩, ⟨0, 0, 1⟩, 1, 0, 0, true,
          Material.dielectric 1⟩, fun _ _ => none⟩)
        ⟨⟨-10, -10, -10⟩, ⟨10, 10, 10⟩⟩)
      ⟨⟨0, 0, 0⟩, ⟨1, 1, 1⟩, 0⟩ (-1) 5
      = some ⟨⟨2, 0, 0⟩, ⟨0, 0, 1⟩, 1, 0, 0, true, Material.dielectric 1⟩
    ∧ ((⟨1, 0, 0⟩ : Vec3) ≠ (⟨2, 0, 0⟩ : Vec3)) := by
  constructor
  · have hbb : (⟨⟨-10, -10, -10⟩, ⟨10, 10, 10⟩⟩ : AABB).hit
        ⟨⟨0, 0, 0⟩, ⟨1, 1, 1⟩, 0⟩ (-1) 5 = true := by
      norm_num [AABB.hit, AABB.computeIntersection, minComp, maxComp,
        vecComp]
    unfold BVH.hit
    dsimp only
    rw [hbb, if_neg (by simp : ¬ (true = false))]
    unfold BVH.hit
    dsimp only
    norm_num
  · simp

/-- Interval-respecting probe hittable used by the C4 witness: it reports
a hit at parameter `tv` exactly when `tv` lies strictly inside the queried
interval. -/
def probeObj (tv : ℚ) : Obj :=
  ⟨fun ray a b =>
      if a < tv ∧ tv < b
      then some ⟨ray.atParam tv, ⟨0, 0, 1⟩, tv, 0, 0, true,
        Material.dielectric 1⟩
      else none,
    fun _ _ => some ⟨⟨-100, -100, -100⟩, ⟨100, 100, 100⟩⟩⟩

/-- A probe leaf satisfies the interval contract. -/
theorem probeObj_respects (tv : ℚ) :
    RespectsInterval (BVH.leaf (probeObj tv)) := by
  intro ray a b h hh
  simp only [probeObj] at hh
  by_cases hcond : a < tv ∧ tv < b
  · rw [if_pos hcond] at hh
    injection hh with hh
    rw [← hh]
    exact hcond
  · rw [if_neg hcond] at hh
    cases hh

/-- C4 amended-claim witness: the shrink-then-prefer-right behavior on
concrete interval-respecting leaves: the left probe hits at `t = 2`, the
right probe is queried over `(-1, 2)` and hits at `t = 1 < 2`, and the
branch returns the right (closer) hit. -/
theorem bvh_branch_traversal_witness :
    (1 : ℚ) < 2
    ∧ BVH.hit
        (BVH.branch (BVH.leaf (probeObj 2)) (BVH.leaf (probeObj 1))
          ⟨⟨-10, -10, -10⟩, ⟨10, 10, 10⟩⟩)
        ⟨⟨0, 0, 0⟩, ⟨1, 1, 1⟩, 0⟩ (-1) 5
        = some ⟨Ray.atParam ⟨⟨0, 0, 0⟩, ⟨1, 1, 1⟩, 0⟩ 1, ⟨0, 0, 1⟩, 1, 0, 0,
            true, Material.dielectric 1⟩ := by
  have hbb : (⟨⟨-10, -10, -10⟩, ⟨10, 10, 10⟩⟩ : AABB).hit
      ⟨⟨0, 0, 0⟩, ⟨1, 1, 1⟩, 0⟩ (-1) 5 = true := by
    norm_num [AABB.hit, AABB.computeIntersection, minComp, maxComp, vecComp]
  have hlx : BVH.hit (BVH.leaf (probeObj 2)) ⟨⟨0, 0, 0⟩, ⟨1, 1, 1⟩, 0⟩ (-1) 5
      = some ⟨Ray.atParam ⟨⟨0, 0, 0⟩, ⟨1, 1, 1⟩, 0⟩ 2, ⟨0, 0, 1⟩, 2, 0, 0,
          true, Material.dielectric 1⟩ := by
    unfold BVH.hit probeObj
    norm_num
  have hry : BVH.hit (BVH.leaf (probeObj 1)) ⟨⟨0, 0, 0⟩, ⟨1, 1, 1⟩, 0⟩ (-1) 2
      = some ⟨Ray.atParam ⟨⟨0, 0, 0⟩, ⟨1, 1, 1⟩, 0⟩ 1, ⟨0, 0, 1⟩, 1, 0, 0,
          true, Material.dielectric 1⟩ := by
    unfold BVH.hit probeObj
    norm_num
  obtain ⟨hlt, hres⟩ := (bvh_branch_traversal (BVH.leaf (probeObj 2))
      (BVH.leaf (probeObj 1)) ⟨⟨-10, -10, -10⟩, ⟨10, 10, 10⟩⟩
      ⟨⟨0, 0, 0⟩, ⟨1, 1, 1⟩, 0⟩ (-1) 5).2.2.2.1
    ⟨Ray.atParam ⟨⟨0, 0, 0⟩, ⟨1, 1, 1⟩, 0⟩ 2, ⟨0, 0, 1⟩, 2, 0, 0, true,
      Material.dielectric 1⟩
    ⟨Ray.atParam ⟨⟨0, 0, 0⟩, ⟨1, 1, 1⟩, 0⟩ 1, ⟨0, 0, 1⟩, 1, 0, 0, true,
      Material.dielectric 1⟩
    (probeObj_respects 1) hbb hlx hry
  exact ⟨hlt, hres⟩

/-- Candidate-set rendering of the Hittable `hit` contract (spec section
4.2): the object has a set of candidate parameters per ray (for a sphere,
its at most two quadratic roots), `hit` over `(a, b)` reports the smallest
candidate strictly inside the interval — requirement (b) reject roots
outside the open interval and (c) prefer the nearer root — and the hit
point is the ray evaluated at that parameter (requirement (d), as both
sphere implementations compute `point = ray.at(t)`). -/
def HitSpec (hitf : Ray → ℚ → ℚ → Option HitRecord)
    (cands : Ray → List ℚ) : Prop :=
  ∀ ray a b,
    (hitf ray a b).map proj
      = (minQ ((cands ray).filter (fun t => decide (a < t ∧ t < b)))).map
          (fun t => (t, ray.atParam t))

/-- Bounding-box side of the Hittable contract (spec sections 3 and 4.2):
every candidate intersection parameter of the object is conservatively
covered by the object's reported box — the slab test over any open
interval containing the candidate succeeds. -/
def InBoxSpec (o : Obj) (t0 t1 : ℚ) (cands : Ray → List ℚ) : Prop :=
  ∀ ray t, t ∈ cands ray → ∀ lo hi, lo < t → t < hi →
    ∀ bb, o.bounding_box t0 t1 = some bb → bb.hit ray lo hi = true

/-- A well-behaved hittable: it reports a bounding box, and its `hit` and
box satisfy the candidate-set contract. -/
def Wb (t0 t1 : ℚ) (o : Obj) (cands : Ray → List ℚ) : Prop :=
  (o.bounding_box t0 t1).isSome ∧ HitSpec o.hit cands
    ∧ InBoxSpec o t0 t1 cands

/-- Componentwise box containment. -/
def subBox (inner outer : AABB) : Prop :=
  outer.minimum.x ≤ inner.minimum.x ∧ inner.maximum.x ≤ outer.maximum.x ∧
  outer.minimum.y ≤ inner.minimum.y ∧ inner.maximum.y ≤ outer.maximum.y ∧
  outer.minimum.z ≤ inner.minimum.z ∧ inner.maximum.z ≤ outer.maximum.z

theorem subBox_comp {inner outer : AABB} (h : subBox inner outer) (d : ℕ) :
    minComp outer d ≤ minComp inner d ∧ maxComp inner d ≤ maxComp outer d := by
  obtain ⟨h1, h2, h3, h4, h5, h6⟩ := h
  unfold minComp maxComp vecComp
  split_ifs <;> exact ⟨by assumption, by assumption⟩

/-- The slab test is monotone under box enlargement, axis by axis. -/
theorem computeIntersection_mono (b1 b2 : AABB) (ray : Ray) (lo hi : ℚ)
    (d : ℕ) (hmin : minComp b2 d ≤ minComp b1 d)
    (hmax : maxComp b1 d ≤ maxComp b2 d)
    (h : b1.computeIntersection ray lo hi d = true) :
    b2.computeIntersection ray lo hi d = true := by
  rw [computeIntersection_eq_slabAxisSpec] at h ⊢
  unfold slabAxisSpec at h ⊢
  dsimp only at h ⊢
  have hmin' : minComp b2 d - vecComp ray.origin d
      ≤ minComp b1 d - vecComp ray.origin d := by linarith
  have hmax' : maxComp b1 d - vecComp ray.origin d
      ≤ maxComp b2 d - vecComp ray.origin d := by linarith
  by_cases hI : (1 / vecComp ray.direction d) < 0
  · simp only [if_pos hI] at h ⊢
    have hentry : (maxComp b2 d - vecComp ray.origin d)
          * (1 / vecComp ray.direction d)
        ≤ (maxComp b1 d - vecComp ray.origin d)
          * (1 / vecComp ray.direction d) :=
      mul_le_mul_of_nonpos_right hmax' (le_of_lt hI)
    have hexit : (minComp b1 d - vecComp ray.origin d)
          * (1 / vecComp ray.direction d)
        ≤ (minComp b2 d - vecComp ray.origin d)
          * (1 / vecComp ray.direction d) :=
      mul_le_mul_of_nonpos_right hmin' (le_of_lt hI)
    intro hcon
    apply h
    have k1 := min_le_min (le_refl hi) hexit
    have k2 := max_le_max (le_refl lo) hentry
    linarith
  · simp only [if_neg hI] at h ⊢
    have hI' : 0 ≤ (1 / vecComp ray.direction d) := not_lt.mp hI
    have hentry : (minComp b2 d - vecComp ray.origin d)
          * (1 / vecComp ray.direction d)
        ≤ (minComp b1 d - vecComp ray.origin d)
          * (1 / vecComp ray.direction d) :=
      mul_le_mul_of_nonneg_right hmin' hI'
    have hexit : (maxComp b1 d - vecComp ray.origin d)
          * (1 / vecComp ray.direction d)
        ≤ (maxComp b2 d - vecComp ray.origin d)
          * (1 / vecComp ray.direction d) :=
      mul_le_mul_of_nonneg_right hmax' hI'
    intro hcon
    apply h
    have k1 := min_le_min (le_refl hi) hexit
    have k2 := max_le_max (le_refl lo) hentry
    linarith

/-- The full slab test is monotone under box enlargement. -/
theorem aabb_hit_mono {b1 b2 : AABB} (hsub : subBox b1 b2) (ray : Ray)
    (lo hi : ℚ) (h : b1.hit ray lo hi = true) : b2.hit ray lo hi = true := by
  unfold AABB.hit at h ⊢
  simp only [Bool.and_eq_true] at h ⊢
  obtain ⟨⟨h0, h1⟩, h2⟩ := h
  exact ⟨⟨computeIntersection_mono b1 b2 ray lo hi 0 (subBox_comp hsub 0).1
      (subBox_comp hsub 0).2 h0,
    computeIntersection_mono b1 b2 ray lo hi 1 (subBox_comp hsub 1).1
      (subBox_comp hsub 1).2 h1⟩,
    computeIntersection_mono b1 b2 ray lo hi 2 (subBox_comp hsub 2).1
      (subBox_comp hsub 2).2 h2⟩

theorem subBox_surrounding_left (q u : AABB) :
    subBox q (AABB.surrounding_box q u) := by
  unfold subBox AABB.surrounding_box
  exact ⟨min_le_left _ _, le_max_left _ _, min_le_left _ _, le_max_left _ _,
    min_le_left _ _, le_max_left _ _⟩

theorem subBox_surrounding_right (q u : AABB) :
    subBox u (AABB.surrounding_box q u) := by
  unfold subBox AABB.surrounding_box
  exact ⟨min_le_right _ _, le_max_right _ _, min_le_right _ _,
    le_max_right _ _, min_le_right _ _, le_max_right _ _⟩

/-- Leaves of a BVH tree, in left-to-right order. -/
def leaves : BVH → List Obj
  | BVH.leaf o => [o]
  | BVH.branch l r _ => leaves l ++ leaves r

/-- Structural invariant established by `BVH::construct`: every leaf
reports a box and every branch's cached box contains both children's
boxes. -/
def TreeOk (t0 t1 : ℚ) : BVH → Prop
  | BVH.leaf o => (o.bounding_box t0 t1).isSome
  | BVH.branch l r bb => TreeOk t0 t1 l ∧ TreeOk t0 t1 r ∧
      (∀ q, BVH.bounding_box l t0 t1 = some q → subBox q bb) ∧
      (∀ u, BVH.bounding_box r t0 t1 = some u → subBox u bb)

theorem treeOk_box_isSome {t0 t1 : ℚ} :
    ∀ {T : BVH}, TreeOk t0 t1 T → (BVH.bounding_box T t0 t1).isSome := by
  intro T h
  cases T with
  | leaf o => exact h
  | branch l r bb => rfl

/-- All candidate parameters of a list of objects for a given ray. -/
def allCands (C : Obj → Ray → List ℚ) (objs : List Obj) (ray : Ray) :
    List ℚ :=
  objs.flatMap (fun o => C o ray)

theorem allCands_append (C : Obj → Ray → List ℚ) (l₁ l₂ : List Obj)
    (ray : Ray) :
    allCands C (l₁ ++ l₂) ray = allCands C l₁ ray ++ allCands C l₂ ray := by
  unfold allCands
  exact List.flatMap_append _ _ _

/-- Successful construction: on a non-empty list of objects that all
report bounding boxes, `construct` returns a tree whose leaves are a
permutation of the input and which satisfies the box-covering
invariant. -/
theorem construct_ok (axes : List Bool → ℕ) (t0 t1 : ℚ) :
    ∀ (n : ℕ) (objs : List Obj) (path : List Bool), objs.length = n →
    objs ≠ [] → (∀ o ∈ objs, (o.bounding_box t0 t1).isSome) →
    ∃ T, construct axes path t0 t1 objs = Except.ok T
      ∧ (leaves T).Perm objs ∧ TreeOk t0 t1 T := by
  intro n
  induction n using Nat.strong_induction_on with
  | _ n IH =>
    intro objs path hlen hne hboxes
    rcases objs with _ | ⟨o₁, _ | ⟨o₂, rest⟩⟩
    · exact absurd rfl hne
    · refine ⟨BVH.leaf o₁, by simp [construct], by simp [leaves], ?_⟩
      exact hboxes o₁ (by simp)
    · unfold construct
      dsimp only
      have hall : ((o₁ :: o₂ :: rest).all
          fun o => (o.bounding_box t0 t1).isSome) = true := by
        rw [List.all_eq_true]
        intro o ho
        exact hboxes o ho
      rw [if_pos hall]
      set S := (o₁ :: o₂ :: rest).mergeSort
        (fun a b => decide (sortKey t0 t1 (axes path) a
          ≤ sortKey t0 t1 (axes path) b)) with hS
      have hperm : S.Perm (o₁ :: o₂ :: rest) := by
        rw [hS]
        exact List.mergeSort_perm _ _
      have hslen : S.length = rest.length + 2 := by
        rw [hperm.length_eq]
        simp
      have hlen' : (o₁ :: o₂ :: rest).length = rest.length + 2 := by simp
      obtain ⟨R, hR, hRperm, hRok⟩ :=
        IH (S.drop ((o₁ :: o₂ :: rest).length / 2)).length
          (by rw [List.length_drop, hslen, hlen', ← hlen, hlen']; omega)
          (S.drop ((o₁ :: o₂ :: rest).length / 2)) (true :: path) rfl
          (by
            apply List.ne_nil_of_length_pos
            rw [List.length_drop, hslen, hlen']
            omega)
          (fun o ho => hboxes o
            (hperm.mem_iff.mp (List.mem_of_mem_drop ho)))
      obtain ⟨L, hL, hLperm, hLok⟩ :=
        IH (S.take ((o₁ :: o₂ :: rest).length / 2)).length
          (by rw [List.length_take, hslen, hlen', ← hlen, hlen']
              simp <;> omega)
          (S.take ((o₁ :: o₂ :: rest).length / 2)) (false :: path) rfl
          (by
            apply List.ne_nil_of_length_pos
            rw [List.length_take, hslen, hlen']
            simp <;> omega)
          (fun o ho => hboxes o
            (hperm.mem_iff.mp (List.mem_of_mem_take ho)))
      rw [hR, hL]
      dsimp only
      obtain ⟨q, hq⟩ := Option.isSome_iff_exists.mp (treeOk_box_isSome hLok)
      obtain ⟨u, hu⟩ := Option.isSome_iff_exists.mp (treeOk_box_isSome hRok)
      rw [hq, hu]
      dsimp only
      refine ⟨BVH.branch L R (AABB.surrounding_box q u), rfl, ?_, ?_⟩
      · have hsplit : S.take ((o₁ :: o₂ :: rest).length / 2)
            ++ S.drop ((o₁ :: o₂ :: rest).length / 2) = S :=
          List.take_append_drop _ _
        have hcomb := hLperm.append hRperm
        rw [hsplit] at hcomb
        exact hcomb.trans hperm
      · refine ⟨hLok, hRok, ?_, ?_⟩
        · intro q' hq'
          rw [hq] at hq'
          injection hq' with hq'
          rw [← hq']
          exact subBox_surrounding_left q u
        · intro u' hu'
          rw [hu] at hu'
          injection hu' with hu'
          rw [← hu']
          exact subBox_surrounding_right q u

theorem mem_filter_range {L : List ℚ} {a b t : ℚ} :
    t ∈ L.filter (fun t => decide (a < t ∧ t < b)) ↔ t ∈ L ∧ a < t ∧ t < b := by
  simp [List.mem_filter]

theorem map_proj_some {oh : Option HitRecord} {F : List ℚ} {ray : Ray}
    (h : oh.map proj = (minQ F).map (fun t => (t, ray.atParam t)))
    {x : HitRecord} (hx : oh = some x) :
    minQ F = some x.t ∧ x.point = ray.atParam x.t := by
  subst hx
  cases hm : minQ F with
  | none => rw [hm] at h; simp [proj] at h
  | some m =>
      rw [hm] at h
      simp [proj] at h
      obtain ⟨h1, h2⟩ := h
      refine ⟨by rw [h1], ?_⟩
      rw [h2, h1]

theorem map_proj_none {oh : Option HitRecord} {F : List ℚ} {ray : Ray}
    (h : oh.map proj = (minQ F).map (fun t => (t, ray.atParam t)))
    (hx : oh = none) : minQ F = none := by
  subst hx
  cases hm : minQ F with
  | none => rfl
  | some m => rw [hm] at h; simp at h

/-- Characterization of BVH traversal: under the construction invariant
and the candidate-set contract on every leaf, (i) the traversal result,
projected to `(t, point)`, is the least leaf candidate strictly inside
the queried interval, and (ii) every leaf candidate in an interval makes
the node's box pass the slab test over that interval (soundness of
pruning). -/
theorem bvh_hit_char (t0 t1 : ℚ) (C : Obj → Ray → List ℚ) :
    ∀ T : BVH, TreeOk t0 t1 T → (∀ o ∈ leaves T, Wb t0 t1 o (C o)) →
    ∀ ray a b,
      ((BVH.hit T ray a b).map proj
        = (minQ ((allCands C (leaves T) ray).filter
            (fun t => decide (a < t ∧ t < b)))).map
              (fun t => (t, ray.atParam t)))
      ∧ (∀ t ∈ allCands C (leaves T) ray, ∀ lo hi, lo < t → t < hi →
          ∀ bb, BVH.bounding_box T t0 t1 = some bb →
            bb.hit ray lo hi = true) := by
  intro T
  induction T with
  | leaf o =>
      intro hok hwb ray a b
      obtain ⟨hbox, hspec, hinbox⟩ := hwb o (by simp [leaves])
      have hACl : allCands C (leaves (BVH.leaf o)) ray = C o ray := by
        simp [allCands, leaves]
      constructor
      · rw [hACl]
        exact hspec ray a b
      · intro t ht lo hi hlo hhi bb hbb
        rw [hACl] at ht
        exact hinbox ray t ht lo hi hlo hhi bb hbb
  | branch l r bb ihl ihr =>
      intro hok hwb ray a b
      obtain ⟨hlok, hrok, hcovl, hcovr⟩ := hok
      have hwbl : ∀ o ∈ leaves l, Wb t0 t1 o (C o) := fun o ho =>
        hwb o (by simp only [leaves, List.mem_append]; exact Or.inl ho)
      have hwbr : ∀ o ∈ leaves r, Wb t0 t1 o (C o) := fun o ho =>
        hwb o (by simp only [leaves, List.mem_append]; exact Or.inr ho)
      have hACb : allCands C (leaves (BVH.branch l r bb)) ray
          = allCands C (leaves l) ray ++ allCands C (leaves r) ray := by
        simp only [leaves]
        exact allCands_append C _ _ ray
      have part2 : ∀ t ∈ allCands C (leaves (BVH.branch l r bb)) ray,
          ∀ lo hi, lo < t → t < hi →
          ∀ bb', BVH.bounding_box (BVH.branch l r bb) t0 t1 = some bb' →
            bb'.hit ray lo hi = true := by
        intro t ht lo hi hlo hhi bb' hbb'
        have hbbeq : bb = bb' := by
          injection hbb'
        subst hbbeq
        rw [hACb] at ht
        rcases List.mem_append.mp ht with hml | hmr
        · obtain ⟨q, hq⟩ :=
            Option.isSome_iff_exists.mp (treeOk_box_isSome hlok)
          have hqhit := (ihl hlok hwbl ray a b).2 t hml lo hi hlo hhi q hq
          exact aabb_hit_mono (hcovl q hq) ray lo hi hqhit
        · obtain ⟨u, hu⟩ :=
            Option.isSome_iff_exists.mp (treeOk_box_isSome hrok)
          have huhit := (ihr hrok hwbr ray a b).2 t hmr lo hi hlo hhi u hu
          exact aabb_hit_mono (hcovr u hu) ray lo hi huhit
      refine ⟨?_, part2⟩
      unfold BVH.hit
      dsimp only
      by_cases hbbhit : bb.hit ray a b = false
      · rw [if_pos hbbhit]
        have hfe : (allCands C (leaves (BVH.branch l r bb)) ray).filter
            (fun t => decide (a < t ∧ t < b)) = [] := by
          rw [List.filter_eq_nil_iff]
          intro t ht
          simp only [decide_eq_true_eq, not_and]
          intro h1 h2
          have := part2 t ht a b h1 h2 bb rfl
          rw [this] at hbbhit
          cases hbbhit
        rw [hfe]
        rfl
      · rw [if_neg hbbhit]
        have ihl1 := (ihl hlok hwbl ray a b).1
        rcases hlh : BVH.hit l ray a b with _ | x
        · -- no left hit: no left candidate in (a, b)
          have hFl := map_proj_none ihl1 hlh
          rw [minQ_eq_none_iff] at hFl
          have ihr1 := (ihr hrok hwbr ray a b).1
          dsimp only
          rw [hACb, List.filter_append, hFl, List.nil_append]
          rcases hrh : BVH.hit r ray a b with _ | y
          · rw [hrh] at ihr1
            rw [map_proj_none ihr1 rfl]
            rfl
          · rw [hrh] at ihr1
            exact ihr1
        · -- left hit x
          obtain ⟨hm0, hxpt⟩ := map_proj_some ihl1 hlh
          have hx_mem := minQ_mem hm0
          obtain ⟨hx_in, hax, hxb⟩ := mem_filter_range.mp hx_mem
          have ihr2 := (ihr hrok hwbr ray a x.t).1
          dsimp only
          rw [hACb, List.filter_append]
          rcases hrh : BVH.hit r ray a x.t with _ | y
          · -- no right hit below x.t: result is x
            have hFr := map_proj_none ihr2 hrh
            rw [minQ_eq_none_iff] at hFr
            have hmin : minQ
                ((allCands C (leaves l) ray).filter
                  (fun t => decide (a < t ∧ t < b))
                ++ (allCands C (leaves r) ray).filter
                  (fun t => decide (a < t ∧ t < b))) = some x.t := by
              apply minQ_of_mem_le
              · exact List.mem_append_left _ hx_mem
              · intro s hs
                rcases List.mem_append.mp hs with hsl | hsr
                · exact minQ_le hm0 s hsl
                · obtain ⟨hs_in, has, hsb⟩ := mem_filter_range.mp hsr
                  by_contra hlt
                  push_neg at hlt
                  have : s ∈ (allCands C (leaves r) ray).filter
                      (fun t => decide (a < t ∧ t < x.t)) :=
                    mem_filter_range.mpr ⟨hs_in, has, hlt⟩
                  rw [hFr] at this
                  cases this
            rw [hmin]
            simp [proj, hxpt]
          · -- right hit y, y.t < x.t, result is y
            obtain ⟨hm1, hypt⟩ := map_proj_some ihr2 hrh
            have hy_mem := minQ_mem hm1
            obtain ⟨hy_in, hay, hyx⟩ := mem_filter_range.mp hy_mem
            have hmin : minQ
                ((allCands C (leaves l) ray).filter
                  (fun t => decide (a < t ∧ t < b))
                ++ (allCands C (leaves r) ray).filter
                  (fun t => decide (a < t ∧ t < b))) = some y.t := by
              apply minQ_of_mem_le
              · exact List.mem_append_right _
                  (mem_filter_range.mpr ⟨hy_in, hay, lt_trans hyx hxb⟩)
              · intro s hs
                rcases List.mem_append.mp hs with hsl | hsr
                · exact le_trans (le_of_lt hyx) (minQ_le hm0 s hsl)
                · obtain ⟨hs_in, has, hsb⟩ := mem_filter_range.mp hsr
                  by_contra hlt
                  push_neg at hlt
                  have hs' : s ∈ (allCands C (leaves r) ray).filter
                      (fun t => decide (a < t ∧ t < x.t)) :=
                    mem_filter_range.mpr
                      ⟨hs_in, has, lt_trans hlt hyx⟩
                  exact absurd (minQ_le hm1 s hs') (not_le.mpr hlt)
            rw [hmin]
            dsimp only
            rw [if_neg (not_lt.mpr (le_of_lt hyx))]
            simp [proj, hypt]

/-- Characterization of the linear scan loop: starting from any narrowed
upper bound and accumulated result, the final result (projected) is the
least remaining candidate strictly inside `(t_min, closest)` when one
exists, else the accumulated result. -/
theorem hlHitAux_char (C : Obj → Ray → List ℚ) (ray : Ray) (t_min : ℚ) :
    ∀ (objs : List Obj), (∀ o ∈ objs, HitSpec o.hit (C o)) →
    ∀ (closest : ℚ) (result : Option HitRecord),
      (hlHitAux ray t_min objs closest result).map proj
        = match minQ ((allCands C objs ray).filter
            (fun t => decide (t_min < t ∧ t < closest))) with
          | some m => some (m, ray.atParam m)
          | none => result.map proj := by
  intro objs
  induction objs with
  | nil =>
      intro _ closest result
      simp [hlHitAux, allCands, minQ]
  | cons o rest ih =>
      intro hspec closest result
      have hso := hspec o (by simp)
      have hsrest : ∀ o' ∈ rest, HitSpec o'.hit (C o') := fun o' ho' =>
        hspec o' (by simp [ho'])
      have hAC : allCands C (o :: rest) ray
          = C o ray ++ allCands C rest ray := by
        simp [allCands]
      unfold hlHitAux
      rcases hoh : o.hit ray t_min closest with _ | h
      · have hFo := map_proj_none (hso ray t_min closest) hoh
        rw [minQ_eq_none_iff] at hFo
        rw [ih hsrest closest result, hAC, List.filter_append, hFo,
          List.nil_append]
      · obtain ⟨hm0, hpt⟩ := map_proj_some (hso ray t_min closest) hoh
        have hmem := minQ_mem hm0
        obtain ⟨hin, hlo, hhi⟩ := mem_filter_range.mp hmem
        rw [ih hsrest h.t (some h), hAC, List.filter_append]
        rcases hmr : minQ ((allCands C rest ray).filter
            (fun t => decide (t_min < t ∧ t < h.t))) with _ | m
        · have hFr := minQ_eq_none_iff.mp hmr
          have hmin : minQ
              ((C o ray).filter (fun t => decide (t_min < t ∧ t < closest))
              ++ (allCands C rest ray).filter
                (fun t => decide (t_min < t ∧ t < closest)))
              = some h.t := by
            apply minQ_of_mem_le
            · exact List.mem_append_left _ hmem
            · intro s hs
              rcases List.mem_append.mp hs with hsl | hsr
              · exact minQ_le hm0 s hsl
              · obtain ⟨hs_in, has, hsb⟩ := mem_filter_range.mp hsr
                by_contra hlt
                push_neg at hlt
                have : s ∈ (allCands C rest ray).filter
                    (fun t => decide (t_min < t ∧ t < h.t)) :=
                  mem_filter_range.mpr ⟨hs_in, has, hlt⟩
                rw [hFr] at this
                cases this
          rw [hmin]
          simp [proj, hpt]
        · have hy_mem := minQ_mem hmr
          obtain ⟨hy_in, hay, hyx⟩ := mem_filter_range.mp hy_mem
          have hmin : minQ
              ((C o ray).filter (fun t => decide (t_min < t ∧ t < closest))
              ++ (allCands C rest ray).filter
                (fun t => decide (t_min < t ∧ t < closest)))
              = some m := by
            apply minQ_of_mem_le
            · exact List.mem_append_right _
                (mem_filter_range.mpr ⟨hy_in, hay, lt_trans hyx hhi⟩)
            · intro s hs
              rcases List.mem_append.mp hs with hsl | hsr
              · exact le_trans (le_of_lt hyx) (minQ_le hm0 s hsl)
              · obtain ⟨hs_in, has, hsb⟩ := mem_filter_range.mp hsr
                by_contra hlt
                push_neg at hlt
                have hs' : s ∈ (allCands C rest ray).filter
                    (fun t => decide (t_min < t ∧ t < h.t)) :=
                  mem_filter_range.mpr ⟨hs_in, has, lt_trans hlt hyx⟩
                exact absurd (minQ_le hmr s hs') (not_le.mpr hlt)
          rw [hmin]

/-- Characterization of `HittableList::hit`: the result, projected, is
the least candidate of any object strictly inside `(t_min, t_max)`. -/
theorem hlHit_char (C : Obj → Ray → List ℚ) (objs : List Obj)
    (hspec : ∀ o ∈ objs, HitSpec o.hit (C o)) (ray : Ray) (t_min t_max : ℚ) :
    (hlHit objs ray t_min t_max).map proj
      = (minQ ((allCands C objs ray).filter
          (fun t => decide (t_min < t ∧ t < t_max)))).map
            (fun t => (t, ray.atParam t)) := by
  unfold hlHit
  rw [hlHitAux_char C ray t_min objs hspec t_max none]
  cases minQ ((allCands C objs ray).filter
      (fun t => decide (t_min < t ∧ t < t_max))) with
  | none => rfl
  | some m => rfl

/-- C1: for every non-empty list of well-behaved hittables (each reports
a bounding box, and hit/box satisfy the Hittable candidate-set contract of
spec section 4.2), and for every axis-oracle outcome, `BVH::construct`
succeeds and, for every ray and search interval, traversal returns a hit
for exactly the same rays as the linear scan `HittableList::hit`, with the
same hit parameter `t` and the same hit point. -/
theorem bvh_matches_linear_scan (axes : List Bool → ℕ) (path : List Bool)
    (t0 t1 : ℚ) (C : Obj → Ray → List ℚ) (objs : List Obj)
    (hne : objs ≠ []) (hwb : ∀ o ∈ objs, Wb t0 t1 o (C o)) :
    ∃ T, construct axes path t0 t1 objs = Except.ok T ∧
      ∀ ray t_min t_max,
        (BVH.hit T ray t_min t_max).map proj
          = (hlHit objs ray t_min t_max).map proj := by
  obtain ⟨T, hT, hperm, hok⟩ := construct_ok axes t0 t1 objs.length objs
    path rfl hne (fun o ho => (hwb o ho).1)
  refine ⟨T, hT, ?_⟩
  intro ray t_min t_max
  have hwbT : ∀ o ∈ leaves T, Wb t0 t1 o (C o) := fun o ho =>
    hwb o (hperm.mem_iff.mp ho)
  rw [(bvh_hit_char t0 t1 C T hok hwbT ray t_min t_max).1,
    hlHit_char C objs (fun o ho => (hwb o ho).2.1) ray t_min t_max]
  have hpc : ((allCands C (leaves T) ray).filter
        (fun t => decide (t_min < t ∧ t < t_max))).Perm
      ((allCands C objs ray).filter
        (fun t => decide (t_min < t ∧ t < t_max))) :=
    (hperm.flatMap_right (fun o => C o ray)).filter _
  rw [minQ_perm hpc]

/-- Component of a ray point: `origin + direction * t`, per dimension. -/
theorem vecComp_atParam (ray : Ray) (t : ℚ) (d : ℕ) :
    vecComp (ray.atParam t) d
      = vecComp ray.origin d + vecComp ray.direction d * t := by
  unfold vecComp Ray.atParam Vec3.add Vec3.smul
  split_ifs <;> rfl

/-- One axis of the slab test passes for any parameter strictly inside
the query interval whose ray point lies (closed) between nondegenerate
bounds, provided the direction component is nonzero. -/
theorem slab_axis_of_point (b : AABB) (ray : Ray) (t lo hi : ℚ) (d : ℕ)
    (hdir : vecComp ray.direction d ≠ 0)
    (hnd : minComp b d < maxComp b d)
    (hp1 : minComp b d ≤ vecComp (ray.atParam t) d)
    (hp2 : vecComp (ray.atParam t) d ≤ maxComp b d)
    (hlo : lo < t) (hhi : t < hi) :
    b.computeIntersection ray lo hi d = true := by
  rw [computeIntersection_eq_slabAxisSpec]
  unfold slabAxisSpec
  dsimp only
  rw [vecComp_atParam] at hp1 hp2
  have hddI : vecComp ray.direction d * (1 / vecComp ray.direction d) = 1 :=
    mul_one_div_cancel hdir
  rcases lt_or_gt_of_ne hdir with hneg | hpos
  · have hI : (1 / vecComp ray.direction d) < 0 := by
      rw [one_div]
      exact inv_lt_zero.mpr hneg
    simp only [if_pos hI]
    have hA : (maxComp b d - vecComp ray.origin d)
        * (1 / vecComp ray.direction d) ≤ t := by
      have h1 : vecComp ray.direction d * t
          ≤ maxComp b d - vecComp ray.origin d := by linarith
      have h2 := mul_le_mul_of_nonpos_right h1 (le_of_lt hI)
      have h3 : vecComp ray.direction d * t
            * (1 / vecComp ray.direction d) = t := by
        rw [mul_comm (vecComp ray.direction d) t, mul_assoc, hddI, mul_one]
      linarith
    have hB : t ≤ (minComp b d - vecComp ray.origin d)
        * (1 / vecComp ray.direction d) := by
      have h1 : minComp b d - vecComp ray.origin d
          ≤ vecComp ray.direction d * t := by linarith
      have h2 := mul_le_mul_of_nonpos_right h1 (le_of_lt hI)
      have h3 : vecComp ray.direction d * t
            * (1 / vecComp ray.direction d) = t := by
        rw [mul_comm (vecComp ray.direction d) t, mul_assoc, hddI, mul_one]
      linarith
    have hAB : (maxComp b d - vecComp ray.origin d)
          * (1 / vecComp ray.direction d)
        < (minComp b d - vecComp ray.origin d)
          * (1 / vecComp ray.direction d) := by
      have h1 : maxComp b d - vecComp ray.origin d
          > minComp b d - vecComp ray.origin d := by linarith
      exact mul_lt_mul_of_neg_right h1 hI
    intro hcon
    have h1 : max lo ((maxComp b d - vecComp ray.origin d)
        * (1 / vecComp ray.direction d)) ≤ t := max_le (le_of_lt hlo) hA
    have h2 : t ≤ min hi ((minComp b d - vecComp ray.origin d)
        * (1 / vecComp ray.direction d)) := le_min (le_of_lt hhi) hB
    rcases max_cases lo ((maxComp b d - vecComp ray.origin d)
        * (1 / vecComp ray.direction d)) with ⟨hm1, hm2⟩ | ⟨hm1, hm2⟩ <;>
      rcases min_cases hi ((minComp b d - vecComp ray.origin d)
          * (1 / vecComp ray.direction d)) with ⟨hn1, hn2⟩ | ⟨hn1, hn2⟩ <;>
        rw [hm1] at h1 hcon <;> rw [hn1] at h2 hcon <;> linarith
  · have hI : (0 : ℚ) < (1 / vecComp ray.direction d) := by
      rw [one_div]
      exact inv_pos.mpr hpos
    simp only [if_neg (not_lt.mpr (le_of_lt hI))]
    have hA : (minComp b d - vecComp ray.origin d)
        * (1 / vecComp ray.direction d) ≤ t := by
      have h1 : minComp b d - vecComp ray.origin d
          ≤ vecComp ray.direction d * t := by linarith
      have h2 := mul_le_mul_of_nonneg_right h1 (le_of_lt hI)
      have h3 : vecComp ray.direction d * t
            * (1 / vecComp ray.direction d) = t := by
        rw [mul_comm (vecComp ray.direction d) t, mul_assoc, hddI, mul_one]
      linarith
    have hB : t ≤ (maxComp b d - vecComp ray.origin d)
        * (1 / vecComp ray.direction d) := by
      have h1 : vecComp ray.direction d * t
          ≤ maxComp b d - vecComp ray.origin d := by linarith
      have h2 := mul_le_mul_of_nonneg_right h1 (le_of_lt hI)
      have h3 : vecComp ray.direction d * t
            * (1 / vecComp ray.direction d) = t := by
        rw [mul_comm (vecComp ray.direction d) t, mul_assoc, hddI, mul_one]
      linarith
    have hAB : (minComp b d - vecComp ray.origin d)
          * (1 / vecComp ray.direction d)
        < (maxComp b d - vecComp ray.origin d)
          * (1 / vecComp ray.direction d) := by
      have h1 : minComp b d - vecComp ray.origin d
          < maxComp b d - vecComp ray.origin d := by linarith
      exact mul_lt_mul_of_pos_right h1 hI
    intro hcon
    have h1 : max lo ((minComp b d - vecComp ray.origin d)
        * (1 / vecComp ray.direction d)) ≤ t := max_le (le_of_lt hlo) hA
    have h2 : t ≤ min hi ((maxComp b d - vecComp ray.origin d)
        * (1 / vecComp ray.direction d)) := le_min (le_of_lt hhi) hB
    rcases max_cases lo ((minComp b d - vecComp ray.origin d)
        * (1 / vecComp ray.direction d)) with ⟨hm1, hm2⟩ | ⟨hm1, hm2⟩ <;>
      rcases min_cases hi ((maxComp b d - vecComp ray.origin d)
          * (1 / vecComp ray.direction d)) with ⟨hn1, hn2⟩ | ⟨hn1, hn2⟩ <;>
        rw [hm1] at h1 hcon <;> rw [hn1] at h2 hcon <;> linarith

/-- The full slab test passes for a parameter strictly inside the query
interval whose ray point lies in the closed box, for a nondegenerate box
and a ray with no zero direction component. -/
theorem aabb_hit_of_point_in_box (b : AABB) (ray : Ray) (t lo hi : ℚ)
    (hdx : ray.direction.x ≠ 0) (hdy : ray.direction.y ≠ 0)
    (hdz : ray.direction.z ≠ 0)
    (hndx : b.minimum.x < b.maximum.x) (hndy : b.minimum.y < b.maximum.y)
    (hndz : b.minimum.z < b.maximum.z)
    (hin : inClosedBox b (ray.atParam t)) (hlo : lo < t) (hhi : t < hi) :
    b.hit ray lo hi = true := by
  obtain ⟨h1, h2, h3, h4, h5, h6⟩ := hin
  unfold AABB.hit
  simp only [Bool.and_eq_true]
  refine ⟨⟨?_, ?_⟩, ?_⟩
  · exact slab_axis_of_point b ray t lo hi 0 hdx hndx h1 h2 hlo hhi
  · exact slab_axis_of_point b ray t lo hi 1 hdy hndy h3 h4 hlo hhi
  · exact slab_axis_of_point b ray t lo hi 2 hdz hndz h5 h6 hlo hhi

/-- Fixed box of the well-behaved probe hittable used by the C1
witness. -/
def boxProbeBox : AABB := ⟨⟨-100, -100, -100⟩, ⟨100, 100, 100⟩⟩

/-- Rays the probe responds to: no zero direction component (so the
rational slab model matches `f64`) and the candidate point inside the
probe's box. -/
def okRay (r : Ray) : Prop :=
  r.direction.x ≠ 0 ∧ r.direction.y ≠ 0 ∧ r.direction.z ≠ 0 ∧
    inClosedBox boxProbeBox (r.atParam 5)

instance (r : Ray) : Decidable (okRay r) := by
  unfold okRay
  infer_instance

/-- Concrete well-behaved hittable: hits at parameter `5` exactly when
`5` lies strictly inside the queried interval and the ray is a probe
ray. -/
def boxProbeObj : Obj :=
  ⟨fun ray a b =>
      if okRay ray ∧ a < 5 ∧ 5 < b
      then some ⟨ray.atParam 5, ⟨0, 0, 1⟩, 5, 0, 0, true,
        Material.dielectric 1⟩
      else none,
    fun _ _ => some boxProbeBox⟩

/-- Candidate set of the probe: `[5]` on probe rays, empty otherwise. -/
def boxProbeCands (ray : Ray) : List ℚ := if okRay ray then [5] else []

/-- The probe is a well-behaved hittable. -/
theorem boxProbe_wb (t0 t1 : ℚ) : Wb t0 t1 boxProbeObj boxProbeCands := by
  refine ⟨rfl, ?_, ?_⟩
  · intro ray a b
    unfold boxProbeObj boxProbeCands
    dsimp only
    by_cases hok : okRay ray
    · by_cases hab : a < 5 ∧ 5 < b
      · rw [if_pos ⟨hok, hab.1, hab.2⟩, if_pos hok]
        have hfil : (([5] : List ℚ).filter
            (fun t => decide (a < t ∧ t < b))) = [5] := by
          simp [hab.1, hab.2]
        rw [hfil]
        simp [proj, minQ]
      · rw [if_neg (by tauto), if_pos hok]
        have hfil : (([5] : List ℚ).filter
            (fun t => decide (a < t ∧ t < b))) = [] := by
          simp only [List.filter_eq_nil_iff]
          intro t ht
          simp only [List.mem_singleton] at ht
          subst ht
          simpa using hab
        rw [hfil]
        rfl
    · rw [if_neg (by tauto), if_neg hok]
      rfl
  · intro ray t ht lo hi hlo hhi bb hbb
    unfold boxProbeCands at ht
    by_cases hok : okRay ray
    · rw [if_pos hok] at ht
      simp only [List.mem_singleton] at ht
      subst ht
      have hbb' : boxProbeBox = bb := by
        injection hbb
      rw [← hbb']
      obtain ⟨hdx, hdy, hdz, hin⟩ := hok
      exact aabb_hit_of_point_in_box boxProbeBox ray 5 lo hi hdx hdy hdz
        (by norm_num [boxProbeBox]) (by norm_num [boxProbeBox])
        (by norm_num [boxProbeBox]) hin hlo hhi
    · rw [if_neg hok] at ht
      cases ht

/-- C1 witness: the equivalence theorem applied to the concrete singleton
scene of the probe hittable, with all contract hypotheses discharged. -/
theorem bvh_matches_linear_scan_witness :
    ([boxProbeObj] : List Obj) ≠ []
    ∧ ∃ T, construct (fun _ => 0) [] 0 1 [boxProbeObj] = Except.ok T ∧
        ∀ ray t_min t_max,
          (BVH.hit T ray t_min t_max).map proj
            = (hlHit [boxProbeObj] ray t_min t_max).map proj :=
  ⟨by simp,
    bvh_matches_linear_scan (fun _ => 0) [] 0 1 (fun _ => boxProbeCands)
      [boxProbeObj] (by simp)
      (fun o ho => by
        have heq : o = boxProbeObj := by simpa using ho
        rw [heq]
        exact boxProbe_wb 0 1)⟩
